import Mathlib

/-!
# Verification of the r2t2 FTDC reader core

Shallow embedding of the FTDC (diagnostic time-series archive) reader:
the LEB128 variable-length integer decoder (`leb128::read::unsigned`),
the delta-stream decoder (`MetricsDecoder::decode_deltas` in
`src/ftdc/decode.rs`), the reference-document walk
(`MetricsDecoder::collect_metrics`), chunk finalization
(`MetricsDecoder::finish`), the dataset store (`DataSet` in `src/main.rs`),
the container-reader error plumbing (`read_chunk_len` in `src/ftdc.rs`),
and the sampler (`DataSet::sample_metrics`).

Machine integers are modelled as `Nat`/`Int` with explicit reductions
modulo `2 ^ 64`; Rust arithmetic is modelled with release-profile
(two's-complement wrapping) semantics.  Fallible operations return
`Option`/`Except`; `none` models a panic (process abort), `Except.error`
models a recoverable `Err`.  Rust `f64` column values are modelled as
`Option ℚ` where `none` stands for NaN (the "absent" sentinel); this is
exact for all claims below, none of which depend on float rounding.
`chrono::DateTime<Utc>` is modelled by its millisecond value (an `Int`):
ordering and `timestamp_millis` agree with this representation, and the
partial construction `DateTime::from_timestamp(..).unwrap()` is modelled
by the `Option`-valued `unix_millis_to_timestamp`.
-/

/-- Two's-complement wrap of an integer into the signed 64-bit range
`[-2^63, 2^63)`.  This is the value an `i64` holds after a Rust
release-mode (wrapping) arithmetic operation with mathematical result `z`. -/
def wrap64 (z : Int) : Int := (z + 2 ^ 63) % 2 ^ 64 - 2 ^ 63

/-- Bit-pattern reinterpretation of an unsigned 64-bit value (a `Nat`
below `2 ^ 64`) as a signed 64-bit integer: Rust's `u64 as i64`. -/
def toSigned64 (n : Nat) : Int := wrap64 n

/-- Wrapping subtraction on `usize` values (`Nat`s below `2 ^ 64`):
Rust's release-mode `a - b` on `usize`. -/
def usizeSub (a b : Nat) : Nat := (a + 2 ^ 64 - b) % 2 ^ 64

theorem wrap64_range (z : Int) : -2 ^ 63 ≤ wrap64 z ∧ wrap64 z < 2 ^ 63 := by
  unfold wrap64
  omega

theorem wrap64_add_wrap64 (a b : Int) : wrap64 (a + wrap64 b) = wrap64 (a + b) := by
  unfold wrap64
  omega

/-- The wrap of an in-range value is itself. -/
theorem wrap64_of_range (z : Int) (h1 : -2 ^ 63 ≤ z) (h2 : z < 2 ^ 63) : wrap64 z = z := by
  unfold wrap64
  omega

/-!
## LEB128 unsigned variable-length integers

Model of `leb128::read::unsigned`: bytes are read little-endian, 7 payload
bits per byte, the high bit is the continuation flag.  When the
accumulated shift reaches 63 the next byte must be `0x00` or `0x01`,
otherwise the crate reports `Overflow`; both read errors (`Overflow` and
end of input) are modelled as `none`.  A stream is a `List Nat` of bytes
(each below 256).
-/

/-- One step of the `leb128::read::unsigned` loop, carrying the current
shift.  Returns the decoded value (already shifted into position) and the
unconsumed remainder of the stream. -/
def readLEBAux (shift : Nat) : List Nat → Option (Nat × List Nat)
  | [] => none
  | b :: rest =>
    if shift = 63 ∧ ¬(b = 0 ∨ b = 1) then none
    else if b < 128 then some (b * 2 ^ shift, rest)
    else
      match readLEBAux (shift + 7) rest with
      | some (v, rest') => some (b % 128 * 2 ^ shift + v, rest')
      | none => none

/-- `leb128::read::unsigned` on a byte stream. -/
def readLEB (stream : List Nat) : Option (Nat × List Nat) := readLEBAux 0 stream

/-- The canonical (minimal) LEB128 encoding of an unsigned value, as
produced by the reference encoder. -/
def encodeLEB (v : Nat) : List Nat :=
  if v < 128 then [v] else (v % 128 + 128) :: encodeLEB (v / 128)
decreasing_by exact Nat.div_lt_self (by omega) (by omega)

theorem readLEBAux_length {shift : Nat} {s rest : List Nat} {v : Nat}
    (h : readLEBAux shift s = some (v, rest)) : rest.length < s.length := by
  induction s generalizing shift v with
  | nil => simp [readLEBAux] at h
  | cons b tail ih =>
    unfold readLEBAux at h
    split at h
    · exact absurd h (by simp)
    · split at h
      · simp only [Option.some.injEq, Prod.mk.injEq] at h
        obtain ⟨-, rfl⟩ := h
        simp
      · revert h
        split
        · rename_i v' rest' heq
          intro h
          simp only [Option.some.injEq, Prod.mk.injEq] at h
          obtain ⟨-, rfl⟩ := h
          have := ih heq
          simp only [List.length_cons]
          omega
        · intro h
          exact absurd h (by simp)

theorem readLEB_length {s rest : List Nat} {v : Nat}
    (h : readLEB s = some (v, rest)) : rest.length < s.length :=
  readLEBAux_length h

/-- Reading the canonical encoding of `v` (shifted by a partial
accumulation) succeeds and consumes exactly the encoding. -/
theorem readLEBAux_encodeLEB (v : Nat) (shift : Nat) (rest : List Nat)
    (hv : v * 2 ^ shift < 2 ^ 64) :
    readLEBAux shift (encodeLEB v ++ rest) = some (v * 2 ^ shift, rest) := by
  induction v using Nat.strong_induction_on generalizing shift with
  | _ v ih =>
    by_cases hsmall : v < 128
    · unfold encodeLEB
      simp only [hsmall, if_pos, List.cons_append, List.nil_append]
      unfold readLEBAux
      have hguard : ¬(shift = 63 ∧ ¬(v = 0 ∨ v = 1)) := by
        rintro ⟨rfl, hne⟩
        have : v ≤ 1 := by
          by_contra hgt
          have : 2 * 2 ^ 63 ≤ v * 2 ^ 63 :=
            Nat.mul_le_mul_right _ (by omega)
          have : (2 : Nat) ^ 64 ≤ v * 2 ^ 63 := by
            calc (2 : Nat) ^ 64 = 2 * 2 ^ 63 := by norm_num
            _ ≤ v * 2 ^ 63 := this
          omega
        exact hne (by omega)
      rw [if_neg hguard, if_pos hsmall]
    · have hge : 128 ≤ v := by omega
      unfold encodeLEB
      simp only [hsmall, if_neg, if_false, List.cons_append]
      unfold readLEBAux
      have hshift : shift ≠ 63 := by
        intro hrfl
        subst hrfl
        have : 128 * 2 ^ 63 ≤ v * 2 ^ 63 := Nat.mul_le_mul_right _ hge
        have h128 : (128 : Nat) * 2 ^ 63 = 2 ^ 70 := by norm_num
        have h70 : (2 : Nat) ^ 64 < 2 ^ 70 := by norm_num
        omega
      have hguard : ¬(shift = 63 ∧ ¬(v % 128 + 128 = 0 ∨ v % 128 + 128 = 1)) := by
        rintro ⟨rfl, -⟩
        exact hshift rfl
      have hbyte : ¬(v % 128 + 128 < 128) := by omega
      rw [if_neg hguard, if_neg hbyte]
      have hrec : v / 128 * 2 ^ (shift + 7) < 2 ^ 64 := by
        have heq7 : v / 128 * 2 ^ (shift + 7) = v / 128 * 128 * 2 ^ shift := by
          rw [pow_add]
          ring_nf
        rw [heq7]
        have hle : v / 128 * 128 ≤ v := Nat.div_mul_le_self v 128
        exact lt_of_le_of_lt (Nat.mul_le_mul_right _ hle) hv
      rw [ih (v / 128) (Nat.div_lt_self (by omega) (by omega)) (shift + 7) hrec]
      have hb : (v % 128 + 128) % 128 = v % 128 := by omega
      have hval : v % 128 * 2 ^ shift + v / 128 * 2 ^ (shift + 7) = v * 2 ^ shift := by
        have h7 : (2 : Nat) ^ (shift + 7) = 2 ^ shift * 128 := by
          rw [pow_add]
          norm_num
        calc v % 128 * 2 ^ shift + v / 128 * 2 ^ (shift + 7)
            = (v % 128 + v / 128 * 128) * 2 ^ shift := by rw [h7]; ring
          _ = v * 2 ^ shift := by rw [Nat.mod_add_div' v 128]
      rw [hb]
      show some (v % 128 * 2 ^ shift + v / 128 * 2 ^ (shift + 7), rest)
          = some (v * 2 ^ shift, rest)
      rw [hval]

/-- Reading the canonical encoding of a `u64` value succeeds and
consumes exactly the encoding. -/
theorem readLEB_encodeLEB (v : Nat) (rest : List Nat) (hv : v < 2 ^ 64) :
    readLEB (encodeLEB v ++ rest) = some (v, rest) := by
  have := readLEBAux_encodeLEB v 0 rest (by simpa using hv)
  simpa using this

/-!
## Metric keys

`MetricKey` (`src/metric/key.rs`) is a sequence of string segments whose
equality, hash and order are those of the segments joined with a NUL
separator.  A key is modelled as its `List String` of segments; wherever
the source compares or hashes keys, the model compares the canonical
NUL-joined form `canon`.
-/

/-- The canonical NUL-joined form of a metric key; `MetricKey`'s equality,
hashing and ordering all operate on this string. -/
def canon (k : List String) : String := String.intercalate "\x00" k

/-- Association-list lookup keyed by the canonical form, modelling a
`HashMap<MetricKey, _>` lookup (including lookups by a borrowed `&str`). -/
def lookupCanon {α : Type} : List (List String × α) → String → Option α
  | [], _ => none
  | kv :: rest, s => if canon kv.1 = s then some kv.2 else lookupCanon rest s

/-- `HashMap` insertion: replaces the value of an existing canonically
equal key (keeping the stored key), otherwise adds the entry. -/
def insertCanon {α : Type} : List (List String × α) → List String → α → List (List String × α)
  | [], k, v => [(k, v)]
  | kv :: rest, k, v =>
    if canon kv.1 = canon k then (kv.1, v) :: rest else kv :: insertCanon rest k v

/-- `HashMap::from_iter` / `collect()`: inserts the pairs in order, later
duplicates overwriting earlier ones. -/
def buildMap {α : Type} (l : List (List String × α)) : List (List String × α) :=
  l.foldl (fun m kv => insertCanon m kv.1 kv.2) []

/-!
## The delta-stream decoder

`MetricsDecoder::decode_deltas` (`src/ftdc/decode.rs:25-53`).  The
decoder state is the remaining byte stream and the shared `num_zeroes`
run counter.  `decodeColumn` is the inner `while deltas_left > 0` loop
for one column; it returns the values appended to the column (the seed is
not included), the remaining stream and the remaining run counter.
`none` models a propagated `Err` from `leb128::read::unsigned`.
`value += delta` is `i64` addition, which wraps in a release build.
-/

def decodeColumn (value : Int) (deltasLeft : Nat) (stream : List Nat) (numZeroes : Nat) :
    Option (List Int × List Nat × Nat) :=
  if deltasLeft = 0 then some ([], stream, numZeroes)
  else if 0 < numZeroes then
    -- `let zeroes_to_use = min(deltas_left, num_zeroes)` in the source,
    -- written inline here
    match decodeColumn value (deltasLeft - min deltasLeft numZeroes) stream
        (numZeroes - min deltasLeft numZeroes) with
    | some (vs, s', z') => some (List.replicate (min deltasLeft numZeroes) value ++ vs, s', z')
    | none => none
  else
    match h1 : readLEB stream with
    | none => none
    | some (d, s1) =>
      if d ≠ 0 then
        match decodeColumn (wrap64 (value + toSigned64 d)) (deltasLeft - 1) s1 0 with
        | some (vs, s', z') => some (wrap64 (value + toSigned64 d) :: vs, s', z')
        | none => none
      else
        match h2 : readLEB s1 with
        | none => none
        | some (k, s2) =>
          -- `num_zeroes = 1 + ... as usize`: the addition is on `usize` and
          -- wraps in a release build (`k = 2^64 - 1` wraps the run to zero)
          decodeColumn value deltasLeft s2 ((k + 1) % 2 ^ 64)
termination_by (deltasLeft, stream.length)
decreasing_by
· exact Prod.Lex.left _ _ (by omega)
· exact Prod.Lex.left _ _ (by omega)
· exact Prod.Lex.right _ (lt_trans (readLEB_length h2) (readLEB_length h1))

/-- The outer `for (_, values) in self.metrics.iter_mut()` loop of
`decode_deltas`: metrics are `(key, seed)` pairs in emission order; each
finished column is the seed followed by the appended samples.  The
`num_zeroes` counter is threaded from one column to the next. -/
def decodeColumns (numDeltas : Nat) (metrics : List (List String × Int)) (stream : List Nat)
    (numZeroes : Nat) : Option (List (List String × List Int) × List Nat × Nat) :=
  match metrics with
  | [] => some ([], stream, numZeroes)
  | (key, seed) :: rest =>
    match decodeColumn seed numDeltas stream numZeroes with
    | none => none
    | some (vs, s', z') =>
      match decodeColumns numDeltas rest s' z' with
      | none => none
      | some (cols, s'', z'') => some ((key, seed :: vs) :: cols, s'', z'')

/-- `decode_deltas` proper: starts with `num_zeroes = 0`. -/
def decodeDeltas (numDeltas : Nat) (metrics : List (List String × Int)) (stream : List Nat) :
    Option (List (List String × List Int) × List Nat × Nat) :=
  decodeColumns numDeltas metrics stream 0

/-!
## Well-formed delta streams

A well-formed stream is the canonical encoding, by the reference encoder,
of a sequence of tokens: a nonzero delta `d` (one delta slot) or a zero
run `(0, k)` covering `k + 1` consecutive zero deltas.
-/

inductive DeltaTok : Type where
  | delta (d : Nat) : DeltaTok
  | zeros (k : Nat) : DeltaTok

/-- The bytes a token contributes to the stream. -/
def DeltaTok.bytes : DeltaTok → List Nat
  | .delta d => encodeLEB d
  | .zeros k => encodeLEB 0 ++ encodeLEB k

/-- The number of delta slots a token covers. -/
def DeltaTok.count : DeltaTok → Nat
  | .delta _ => 1
  | .zeros k => k + 1

/-- A token is valid when its payloads fit in a `u64` and a `delta`
token is genuinely nonzero. -/
def DeltaTok.Valid : DeltaTok → Prop
  | .delta d => d ≠ 0 ∧ d < 2 ^ 64
  | .zeros k => k < 2 ^ 64

/-- The byte stream encoding a token sequence. -/
def streamOf (toks : List DeltaTok) : List Nat := (toks.map DeltaTok.bytes).flatten

/-- The total number of delta slots a token sequence covers. -/
def slotCount (toks : List DeltaTok) : Nat := (toks.map DeltaTok.count).sum

theorem streamOf_nil : streamOf [] = [] := rfl

theorem streamOf_cons (t : DeltaTok) (rest : List DeltaTok) :
    streamOf (t :: rest) = t.bytes ++ streamOf rest := by
  simp [streamOf]

theorem slotCount_cons (t : DeltaTok) (rest : List DeltaTok) :
    slotCount (t :: rest) = t.count + slotCount rest := by
  simp [slotCount]

/-- On success, a column receives exactly `deltasLeft` appended samples.
(Auxiliary version with an explicit bound for the induction.) -/
theorem decodeColumn_length_aux (n : Nat) : ∀ (value : Int) (deltasLeft : Nat)
    (stream : List Nat) (numZeroes : Nat) (vs : List Int) (s' : List Nat) (z' : Nat),
    deltasLeft + stream.length ≤ n →
    decodeColumn value deltasLeft stream numZeroes = some (vs, s', z') →
    vs.length = deltasLeft := by
  induction n with
  | zero =>
    intro value deltasLeft stream numZeroes vs s' z' hn h
    have hdl : deltasLeft = 0 := by omega
    subst hdl
    unfold decodeColumn at h
    simp only [if_pos rfl, Option.some.injEq, Prod.mk.injEq] at h
    obtain ⟨rfl, -, -⟩ := h
    simp
  | succ n ih =>
    intro value deltasLeft stream numZeroes vs s' z' hn h
    unfold decodeColumn at h
    split at h
    · rename_i hdl
      simp only [Option.some.injEq, Prod.mk.injEq] at h
      obtain ⟨rfl, -, -⟩ := h
      simp [hdl]
    · split at h
      · rename_i hdl hz
        split at h
        · rename_i vs0 s0 z0 heq
          simp only [Option.some.injEq, Prod.mk.injEq] at h
          obtain ⟨rfl, -, -⟩ := h
          have hmin : 1 ≤ min deltasLeft numZeroes := by omega
          have ihl := ih _ _ _ _ _ _ _ (by omega) heq
          simp only [List.length_append, List.length_replicate, ihl]
          omega
        · exact absurd h (by simp)
      · split at h
        · exact absurd h (by simp)
        · rename_i hdl hz d s1 hread
          have hs1 : s1.length < stream.length := readLEB_length hread
          split at h
          · rename_i hd
            split at h
            · rename_i vs0 s0 z0 heq
              simp only [Option.some.injEq, Prod.mk.injEq] at h
              obtain ⟨rfl, -, -⟩ := h
              have ihl := ih _ _ _ _ _ _ _ (by omega) heq
              simp only [List.length_cons, ihl]
              omega
            · exact absurd h (by simp)
          · split at h
            · exact absurd h (by simp)
            · rename_i hd k s2 hread2
              have hs2 : s2.length < s1.length := readLEB_length hread2
              exact ih _ _ _ _ _ _ _ (by omega) h

/-- On success, a column receives exactly `deltasLeft` appended samples. -/
theorem decodeColumn_length {value : Int} {deltasLeft : Nat} {stream : List Nat}
    {numZeroes : Nat} {vs : List Int} {s' : List Nat} {z' : Nat}
    (h : decodeColumn value deltasLeft stream numZeroes = some (vs, s', z')) :
    vs.length = deltasLeft :=
  decodeColumn_length_aux (deltasLeft + stream.length) value deltasLeft stream numZeroes
    vs s' z' le_rfl h

/-- Consuming an already-started zero run that covers the whole remaining
column need: the column is filled with copies of the running value and
the leftover run carries out. -/
theorem decodeColumn_zeros (value : Int) (deltasLeft : Nat) (stream : List Nat)
    (numZeroes : Nat) (h : deltasLeft ≤ numZeroes) :
    decodeColumn value deltasLeft stream numZeroes
      = some (List.replicate deltasLeft value, stream, numZeroes - deltasLeft) := by
  by_cases hdl : deltasLeft = 0
  · subst hdl
    unfold decodeColumn
    simp
  · have hz : 0 < numZeroes := by omega
    have hmin : min deltasLeft numZeroes = deltasLeft := by omega
    unfold decodeColumn
    rw [if_neg hdl, if_pos hz, hmin]
    rw [show deltasLeft - deltasLeft = 0 from by omega]
    unfold decodeColumn
    simp

/-- Unfolding step: zero run shorter than the column's remaining need. -/
theorem decodeColumn_zeros_lt (value : Int) (deltasLeft : Nat) (stream : List Nat)
    (numZeroes : Nat) (h0 : 0 < numZeroes) (hlt : numZeroes < deltasLeft) :
    decodeColumn value deltasLeft stream numZeroes =
      match decodeColumn value (deltasLeft - numZeroes) stream 0 with
      | some (vs, s', z') => some (List.replicate numZeroes value ++ vs, s', z')
      | none => none := by
  have hdl : deltasLeft ≠ 0 := by omega
  have hmin : min deltasLeft numZeroes = numZeroes := by omega
  conv_lhs => rw [decodeColumn]
  rw [if_neg hdl, if_pos h0, hmin]
  rw [show numZeroes - numZeroes = 0 from by omega]

/-- Unfolding step: with no active zero run, a nonzero delta read from the
stream is reinterpreted as a signed 64-bit value by bit-pattern and added
to the running value with wrapping addition. -/
theorem decodeColumn_step_nonzero (value : Int) (deltasLeft : Nat) (stream s1 : List Nat)
    (d : Nat) (hdl : deltasLeft ≠ 0) (hread : readLEB stream = some (d, s1)) (hd : d ≠ 0) :
    decodeColumn value deltasLeft stream 0 =
      match decodeColumn (wrap64 (value + toSigned64 d)) (deltasLeft - 1) s1 0 with
      | some (vs, s', z') => some (wrap64 (value + toSigned64 d) :: vs, s', z')
      | none => none := by
  conv_lhs => rw [decodeColumn]
  rw [if_neg hdl, if_neg (lt_irrefl 0)]
  split
  · rename_i heq
    rw [hread] at heq
    exact absurd heq (by simp)
  · rename_i d' s1' heq
    rw [hread] at heq
    simp only [Option.some.injEq, Prod.mk.injEq] at heq
    obtain ⟨rfl, rfl⟩ := heq
    rw [if_pos hd]

/-- Unfolding step: with no active zero run, a zero delta read from the
stream is followed by a run length `k`, starting a run of `k + 1` zeroes. -/
theorem decodeColumn_step_zero (value : Int) (deltasLeft : Nat) (stream s1 s2 : List Nat)
    (k : Nat) (hdl : deltasLeft ≠ 0) (hread : readLEB stream = some (0, s1))
    (hread2 : readLEB s1 = some (k, s2)) :
    decodeColumn value deltasLeft stream 0
      = decodeColumn value deltasLeft s2 ((k + 1) % 2 ^ 64) := by
  conv_lhs => rw [decodeColumn]
  rw [if_neg hdl, if_neg (lt_irrefl 0)]
  split
  · rename_i heq
    rw [hread] at heq
    exact absurd heq (by simp)
  · rename_i d' s1' heq
    rw [hread] at heq
    simp only [Option.some.injEq, Prod.mk.injEq] at heq
    obtain ⟨rfl, rfl⟩ := heq
    rw [if_neg (by simp)]
    split
    · rename_i heq2
      rw [hread2] at heq2
      exact absurd heq2 (by simp)
    · rename_i k' s2' heq2
      rw [hread2] at heq2
      simp only [Option.some.injEq, Prod.mk.injEq] at heq2
      obtain ⟨rfl, rfl⟩ := heq2
      rfl

/-- Every token covers at least one delta slot. -/
theorem DeltaTok.count_pos (t : DeltaTok) : 0 < t.count := by
  cases t <;> simp [DeltaTok.count]

/-- A token sequence covering no slots is empty. -/
theorem slotCount_eq_zero {toks : List DeltaTok} (h : slotCount toks = 0) : toks = [] := by
  cases toks with
  | nil => rfl
  | cons t rest =>
    rw [slotCount_cons] at h
    have := t.count_pos
    omega

/-- Decoding one column of a well-formed stream: as long as the column's
remaining need does not exceed the active run plus the slots covered by
the remaining tokens, decoding the column succeeds, stops at a token
boundary, and consumes exactly `deltasLeft` slots. -/
theorem decodeColumn_wf_aux (n : Nat) : ∀ (value : Int) (deltasLeft : Nat)
    (toks : List DeltaTok) (numZeroes : Nat),
    deltasLeft + 2 * toks.length ≤ n →
    (∀ t ∈ toks, t.Valid) →
    numZeroes + slotCount toks < 2 ^ 64 →
    deltasLeft ≤ numZeroes + slotCount toks →
    ∃ vs toks' z',
      decodeColumn value deltasLeft (streamOf toks) numZeroes = some (vs, streamOf toks', z') ∧
      (∀ t ∈ toks', t.Valid) ∧
      z' + slotCount toks' + deltasLeft = numZeroes + slotCount toks := by
  induction n with
  | zero =>
    intro value deltasLeft toks numZeroes hn hval hbound hle
    have hdl : deltasLeft = 0 := by omega
    subst hdl
    refine ⟨[], toks, numZeroes, ?_, hval, by omega⟩
    unfold decodeColumn
    simp
  | succ n ih =>
    intro value deltasLeft toks numZeroes hn hval hbound hle
    by_cases hdl : deltasLeft = 0
    · subst hdl
      refine ⟨[], toks, numZeroes, ?_, hval, by omega⟩
      unfold decodeColumn
      simp
    · by_cases hz : 0 < numZeroes
      · by_cases hcov : deltasLeft ≤ numZeroes
        · refine ⟨List.replicate deltasLeft value, toks, numZeroes - deltasLeft,
            decodeColumn_zeros _ _ _ _ hcov, hval, by omega⟩
        · push_neg at hcov
          obtain ⟨vs, toks', z', hrec, hval', hacc⟩ :=
            ih value (deltasLeft - numZeroes) toks 0 (by omega) hval (by omega) (by omega)
          refine ⟨List.replicate numZeroes value ++ vs, toks', z', ?_, hval', by omega⟩
          rw [decodeColumn_zeros_lt _ _ _ _ hz hcov, hrec]
      · have hz0 : numZeroes = 0 := by omega
        subst hz0
        cases toks with
        | nil =>
          exfalso
          have : slotCount [] = 0 := rfl
          omega
        | cons t rest =>
          have hvt : t.Valid := hval t (by simp)
          have hvrest : ∀ t' ∈ rest, t'.Valid := fun t' ht' => hval t' (by simp [ht'])
          cases t with
          | delta d =>
            obtain ⟨hd0, hd64⟩ := hvt
            have hread : readLEB (streamOf (DeltaTok.delta d :: rest))
                = some (d, streamOf rest) := by
              rw [streamOf_cons]
              exact readLEB_encodeLEB d _ hd64
            have hslot : slotCount (DeltaTok.delta d :: rest) = 1 + slotCount rest := by
              rw [slotCount_cons]
              rfl
            obtain ⟨vs, toks', z', hrec, hval', hacc⟩ :=
              ih (wrap64 (value + toSigned64 d)) (deltasLeft - 1) rest 0 (by simp at hn ⊢; omega)
                hvrest (by omega) (by omega)
            refine ⟨wrap64 (value + toSigned64 d) :: vs, toks', z', ?_, hval', by omega⟩
            rw [decodeColumn_step_nonzero _ _ _ _ _ hdl hread hd0, hrec]
          | zeros k =>
            have hk64 : k < 2 ^ 64 := hvt
            have hread : readLEB (streamOf (DeltaTok.zeros k :: rest))
                = some (0, encodeLEB k ++ streamOf rest) := by
              rw [streamOf_cons]
              show readLEB ((encodeLEB 0 ++ encodeLEB k) ++ streamOf rest) = _
              rw [List.append_assoc]
              exact readLEB_encodeLEB 0 _ (by norm_num)
            have hread2 : readLEB (encodeLEB k ++ streamOf rest) = some (k, streamOf rest) :=
              readLEB_encodeLEB k _ hk64
            have hslot : slotCount (DeltaTok.zeros k :: rest) = (k + 1) + slotCount rest := by
              rw [slotCount_cons]
              rfl
            have hk1 : (k + 1) % 2 ^ 64 = k + 1 := Nat.mod_eq_of_lt (by omega)
            obtain ⟨vs, toks', z', hrec, hval', hacc⟩ :=
              ih value deltasLeft rest (k + 1) (by simp at hn ⊢; omega) hvrest (by omega)
                (by omega)
            refine ⟨vs, toks', z', ?_, hval', by omega⟩
            rw [decodeColumn_step_zero _ _ _ _ _ _ hdl hread hread2, hk1, hrec]

/-- Decoding all columns of a well-formed stream: decoding succeeds, the
stream is fully consumed, the zero-run counter ends at zero, keys are
preserved in order, and every column has `numDeltas + 1` entries. -/
theorem decodeColumns_wf (numDeltas : Nat) : ∀ (metrics : List (List String × Int))
    (toks : List DeltaTok) (numZeroes : Nat),
    (∀ t ∈ toks, t.Valid) →
    numZeroes + slotCount toks < 2 ^ 64 →
    numZeroes + slotCount toks = metrics.length * numDeltas →
    ∃ cols, decodeColumns numDeltas metrics (streamOf toks) numZeroes = some (cols, [], 0) ∧
      cols.map Prod.fst = metrics.map Prod.fst ∧
      ∀ c ∈ cols, c.2.length = numDeltas + 1 := by
  intro metrics
  induction metrics with
  | nil =>
    intro toks numZeroes hval hbound hslots
    simp only [List.length_nil, Nat.zero_mul] at hslots
    have hz : numZeroes = 0 := by omega
    have ht : toks = [] := slotCount_eq_zero (by omega)
    subst hz
    subst ht
    exact ⟨[], rfl, rfl, by simp⟩
  | cons p rest ih =>
    obtain ⟨key, seed⟩ := p
    intro toks numZeroes hval hbound hslots
    simp only [List.length_cons, Nat.succ_mul] at hslots
    obtain ⟨vs, toks', z', hdec, hval', hacc⟩ :=
      decodeColumn_wf_aux (numDeltas + 2 * toks.length) seed numDeltas toks numZeroes
        le_rfl hval hbound (by omega)
    obtain ⟨cols, hcols, hkeys, hlen⟩ := ih toks' z' hval' (by omega) (by omega)
    refine ⟨(key, seed :: vs) :: cols, ?_, ?_, ?_⟩
    · simp only [decodeColumns, hdec, hcols]
    · simp [hkeys]
    · intro c hc
      simp only [List.mem_cons] at hc
      rcases hc with rfl | hc
      · have hvs := decodeColumn_length hdec
        simp [hvs]
      · exact hlen c hc

/-- Sum of a map whose value is constant on the list. -/
theorem sum_map_const_of_forall {α : Type} (l : List α) (f : α → Nat) (c : Nat)
    (h : ∀ x ∈ l, f x = c) : (l.map f).sum = l.length * c := by
  induction l with
  | nil => simp
  | cons x xs ih =>
    simp only [List.map_cons, List.sum_cons, List.length_cons, Nat.succ_mul]
    rw [h x (by simp), ih (fun y hy => h y (by simp [hy]))]
    omega

/-- **C3.** For every well-formed block with `metric_count` metrics and
`delta_count` deltas (the stream is the reference encoding of tokens
covering exactly `metric_count * delta_count` delta slots), after
`decode_deltas` completes over all columns: every column holds exactly
`delta_count + 1` entries, the zero-run counter equals 0, the
variable-length-integer stream has been consumed to exactly its last
byte, and the total number of samples emitted equals
`metric_count * (delta_count + 1)`. -/
theorem decode_deltas_complete (numDeltas : Nat) (metrics : List (List String × Int))
    (toks : List DeltaTok) (hval : ∀ t ∈ toks, t.Valid)
    (hslots : slotCount toks = metrics.length * numDeltas)
    (hfit : metrics.length * numDeltas < 2 ^ 64) :
    ∃ cols, decodeDeltas numDeltas metrics (streamOf toks) = some (cols, [], 0) ∧
      (∀ c ∈ cols, c.2.length = numDeltas + 1) ∧
      (cols.map fun c => c.2.length).sum = metrics.length * (numDeltas + 1) := by
  obtain ⟨cols, hdec, hkeys, hlen⟩ :=
    decodeColumns_wf numDeltas metrics toks 0 hval (by omega) (by omega)
  refine ⟨cols, hdec, hlen, ?_⟩
  have hclen : cols.length = metrics.length := by
    have hl := congrArg List.length hkeys
    simpa using hl
  rw [sum_map_const_of_forall cols _ (numDeltas + 1) hlen, hclen]

/-- Witness for C3: two metrics (`start`, `m`), three deltas, and a
single zero-run token covering all six slots. -/
theorem decode_deltas_complete_witness :
    (∀ t ∈ [DeltaTok.zeros 5], t.Valid) ∧
    slotCount [DeltaTok.zeros 5]
      = [(["start"], (1700000000000 : Int)), (["m"], 10)].length * 3 ∧
    [(["start"], (1700000000000 : Int)), (["m"], 10)].length * 3 < 2 ^ 64 ∧
    ∃ cols, decodeDeltas 3 [(["start"], (1700000000000 : Int)), (["m"], 10)]
        (streamOf [DeltaTok.zeros 5]) = some (cols, [], 0) ∧
      (∀ c ∈ cols, c.2.length = 3 + 1) ∧
      (cols.map fun c => c.2.length).sum
        = [(["start"], (1700000000000 : Int)), (["m"], 10)].length * (3 + 1) :=
  ⟨by intro t ht; simp at ht; subst ht; show (5 : Nat) < 2 ^ 64; norm_num,
   by norm_num [slotCount, DeltaTok.count],
   by norm_num,
   decode_deltas_complete 3 _ _
     (by intro t ht; simp at ht; subst ht; show (5 : Nat) < 2 ^ 64; norm_num)
     (by norm_num [slotCount, DeltaTok.count])
     (by norm_num)⟩

/-- **C1.** Every delta value `d ≠ 0` read from the variable-length
integer stream is reinterpreted as a signed 64-bit integer by bit-pattern
(two's complement) and added to the running value with wrapping addition;
no delta is rejected and no saturating arithmetic is used: for every seed
`s` and delta `d` the appended sample is `s` wrapping-plus `d`, staying in
the signed 64-bit range even when the mathematical sum overflows it. -/
theorem nonzero_delta_wrapping (s : Int) (d : Nat) (hd : d ≠ 0) (hd64 : d < 2 ^ 64) :
    decodeDeltas 1 [(["k"], s)] (streamOf [DeltaTok.delta d])
        = some ([(["k"], [s, wrap64 (s + toSigned64 d)])], [], 0) ∧
    wrap64 (s + toSigned64 d) = wrap64 (s + (d : Int)) ∧
    -2 ^ 63 ≤ wrap64 (s + toSigned64 d) ∧ wrap64 (s + toSigned64 d) < 2 ^ 63 := by
  refine ⟨?_, ?_, (wrap64_range _).1, (wrap64_range _).2⟩
  · have hread : readLEB (streamOf [DeltaTok.delta d]) = some (d, []) := by
      rw [streamOf_cons, streamOf_nil]
      exact readLEB_encodeLEB d [] hd64
    have hbase : decodeColumn (wrap64 (s + toSigned64 d)) 0 [] 0
        = some ([], [], 0) := by
      unfold decodeColumn
      simp
    have hcol : decodeColumn s 1 (streamOf [DeltaTok.delta d]) 0
        = some ([wrap64 (s + toSigned64 d)], [], 0) := by
      rw [decodeColumn_step_nonzero s 1 _ [] d (by omega) hread hd]
      rw [show (1 : Nat) - 1 = 0 from rfl, hbase]
    unfold decodeDeltas decodeColumns
    rw [hcol]
    rfl
  · unfold toSigned64
    exact wrap64_add_wrap64 s d

/-- Witness for C1 at an overflowing input: seed `2 ^ 63 - 1` plus delta
`1` wraps to `-2 ^ 63`. -/
theorem nonzero_delta_wrapping_witness :
    (1 : Nat) ≠ 0 ∧ (1 : Nat) < 2 ^ 64 ∧
    decodeDeltas 1 [(["k"], (9223372036854775807 : Int))] (streamOf [DeltaTok.delta 1])
        = some ([(["k"], [9223372036854775807,
            wrap64 (9223372036854775807 + toSigned64 1)])], [], 0) ∧
    wrap64 ((9223372036854775807 : Int) + toSigned64 1) = -9223372036854775808 :=
  ⟨one_ne_zero, by norm_num,
   (nonzero_delta_wrapping 9223372036854775807 1 one_ne_zero (by norm_num)).1,
   by norm_num [toSigned64, wrap64]⟩

/-- **C4.** The zero-run counter is shared across the whole decoding
pass: a run of `2 * n` zeroes started while filling the first column
(which needs only `n` more samples) is not reset when the second column
starts; the second column consumes the remaining `n` zeroes, each
appending its own running value unchanged. -/
theorem zero_run_crosses_columns (s1 s2 : Int) (k1 k2 : List String) (n : Nat)
    (hn : 1 ≤ n) (hk : 2 * n < 2 ^ 64) :
    decodeDeltas n [(k1, s1), (k2, s2)] (streamOf [DeltaTok.zeros (2 * n - 1)])
      = some ([(k1, s1 :: List.replicate n s1), (k2, s2 :: List.replicate n s2)], [], 0) := by
  have hread : readLEB (streamOf [DeltaTok.zeros (2 * n - 1)])
      = some (0, encodeLEB (2 * n - 1) ++ []) := by
    rw [streamOf_cons, streamOf_nil]
    show readLEB ((encodeLEB 0 ++ encodeLEB (2 * n - 1)) ++ []) = _
    rw [List.append_assoc]
    exact readLEB_encodeLEB 0 _ (by norm_num)
  have hread2 : readLEB (encodeLEB (2 * n - 1) ++ []) = some (2 * n - 1, []) :=
    readLEB_encodeLEB _ [] (by omega)
  have hcol1 : decodeColumn s1 n (streamOf [DeltaTok.zeros (2 * n - 1)]) 0
      = some (List.replicate n s1, [], n) := by
    rw [decodeColumn_step_zero s1 n _ _ [] (2 * n - 1) (by omega) hread hread2]
    rw [show (2 * n - 1 + 1) % 2 ^ 64 = 2 * n from by omega]
    rw [decodeColumn_zeros s1 n [] (2 * n) (by omega)]
    rw [show 2 * n - n = n from by omega]
  have hcol2 : decodeColumn s2 n ([] : List Nat) n
      = some (List.replicate n s2, [], 0) := by
    rw [decodeColumn_zeros s2 n [] n le_rfl]
    rw [show n - n = 0 from by omega]
  simp only [decodeDeltas, decodeColumns, hcol1, hcol2]

/-- Witness for C4: two columns of two deltas each, filled by the single
zero run `(0, 3)`. -/
theorem zero_run_crosses_columns_witness :
    (1 : Nat) ≤ 2 ∧ 2 * 2 < 2 ^ 64 ∧
    decodeDeltas 2 [(["a"], (5 : Int)), (["b"], 7)] (streamOf [DeltaTok.zeros (2 * 2 - 1)])
      = some ([(["a"], 5 :: List.replicate 2 5), (["b"], 7 :: List.replicate 2 7)], [], 0) :=
  ⟨by norm_num, by norm_num,
   zero_run_crosses_columns 5 7 ["a"] ["b"] 2 (by norm_num) (by norm_num)⟩

/-!
## The reference-document walk and chunk finalization

`MetricsDecoder::collect_metrics` / `collect_element_metrics` /
`collect_children` (`src/ftdc/decode.rs:64-106`) walk the BSON reference
document in field order, emitting one `(key, seed)` pair per metric leaf.
BSON values are modelled by `BVal`; a `Timestamp` splits into the two
`Int64` children `t` and `i`, which is written out directly below.
-/

inductive BVal : Type where
  | doc (fields : List (String × BVal))
  | arr (elems : List BVal)
  | dateTime (millis : Int)
  | timestamp (time : Nat) (increment : Nat)
  | int64 (v : Int)
  | int32 (v : Int)
  | double (q : ℚ)
  | boolean (b : Bool)
  | other

/-- Rust `f64 as i64`: truncation toward zero, saturating at the `i64`
bounds (the model carries finite doubles as rationals). -/
def doubleAsI64 (q : ℚ) : Int :=
  max (-(2 ^ 63)) (min (2 ^ 63 - 1) (q.num.tdiv q.den))

mutual

/-- `collect_element_metrics`: emissions of one BSON element under the
given key prefix, in emission order. -/
def collectElementMetrics : BVal → List String → List (List String × Int)
  | .doc fields, pfx => collectFields fields pfx
  | .arr elems, pfx => collectElems elems 0 pfx
  | .dateTime millis, pfx => [(pfx, millis)]
  | .timestamp t i, pfx =>
    -- `collect_children` over the two synthesized `Int64` children
    [(pfx ++ ["t"], (t : Int)), (pfx ++ ["i"], (i : Int))]
  | .int64 v, pfx => [(pfx, v)]
  | .int32 v, pfx => [(pfx, v)]
  | .double q, pfx => [(pfx, doubleAsI64 q)]
  | .boolean b, pfx => [(pfx, if b then 1 else 0)]
  | .other, _ => []

/-- `collect_children` over document fields: the prefix is extended by
the field name for each child, in document order. -/
def collectFields : List (String × BVal) → List String → List (List String × Int)
  | [], _ => []
  | (k, e) :: rest, pfx => collectElementMetrics e (pfx ++ [k]) ++ collectFields rest pfx

/-- `collect_children` over array elements: the prefix is extended by
the decimal index for each element, in index order. -/
def collectElems : List BVal → Nat → List String → List (List String × Int)
  | [], _, _ => []
  | e :: rest, i, pfx => collectElementMetrics e (pfx ++ [toString i]) ++ collectElems rest (i + 1) pfx

end

/-- `collect_metrics`: walk the reference document with an empty prefix. -/
def collectMetrics (doc : List (String × BVal)) : List (List String × Int) :=
  collectElementMetrics (.doc doc) []

/-- `unix_millis_to_timestamp` (`src/metric/time.rs`): computes
`secs = millis / 1000` (truncating `i64` division) and
`nanos = (millis % 1000) as u32 * 1_000_000` — a truncating `i64`
remainder whose `u32` cast wraps negative values, followed by a wrapping
(release-profile) `u32` multiply — and then
`DateTime::from_timestamp(secs, nanos).unwrap()`.  `from_timestamp`
returns `None`, making the `unwrap` panic (`none` here), when `nanos` is
at least 2,000,000,000 — which happens exactly when `millis` is negative
and not divisible by 1000 — or when `secs` falls outside chrono's
representable range, `NaiveDateTime::MIN.timestamp() = -8334632851200`
(January 1, 262145 BCE) to `NaiveDateTime::MAX.timestamp()
= 8210298412799` (end of December 31, 262143 CE).  A successfully built
`DateTime<Utc>` is represented by its millisecond value. -/
def unix_millis_to_timestamp (millis : Int) : Option Int :=
  if 2000000000 ≤ ((millis.tmod 1000).emod (2 ^ 32)).toNat * 1000000 % 2 ^ 32 then none
  else if millis.tdiv 1000 < -8334632851200 ∨ 8210298412799 < millis.tdiv 1000 then none
  else some millis

/-- The timestamp-vector construction in `finish`: maps the `start`
column through `unix_millis_to_timestamp`, propagating its panic. -/
def timestampColumn : List Int → Option (List Int)
  | [] => some []
  | m :: rest =>
    match unix_millis_to_timestamp m with
    | none => none
    | some t =>
      match timestampColumn rest with
      | none => none
      | some ts => some (t :: ts)

/-- A decoded data block: the timestamp vector and the per-key columns
(`MetricsChunk` in `src/ftdc.rs`). -/
structure MetricsChunkM : Type where
  timestamps : List Int
  metrics : List (List String × List Int)

/-- `MetricsDecoder::finish`: collect the columns into a map and build
the timestamp vector from the column whose key is `"start"`.  The map
index `metrics["start"]` panics (`none`) when no such column exists; the
per-value timestamp conversion can also panic. -/
def finish (cols : List (List String × List Int)) : Option MetricsChunkM :=
  match lookupCanon (buildMap cols) "start" with
  | none => none
  | some startCol =>
    match timestampColumn startCol with
    | none => none
    | some ts => some ⟨ts, buildMap cols⟩

/-- Outcome of running a fallible piece of code whose failures are either
a recoverable `Err` or a process-aborting panic. -/
inductive Outcome (α : Type) : Type where
  | ok (a : α)
  | error
  | panic

/-- The data-block decoding pipeline of `extract_data`
(`src/ftdc.rs:74-104`) after the header fields have been read: walk the
reference document, decode the delta stream, finish the chunk. -/
def decodeDataBlock (refDoc : List (String × BVal)) (numDeltas : Nat) (stream : List Nat) :
    Outcome MetricsChunkM :=
  match decodeDeltas numDeltas (collectMetrics refDoc) stream with
  | none => .error
  | some (cols, _, _) =>
    match finish cols with
    | none => .panic
    | some chunk => .ok chunk

/-- On success, `decode_deltas` preserves the emitted keys in order. -/
theorem decodeColumns_keys (numDeltas : Nat) : ∀ (metrics : List (List String × Int))
    (stream : List Nat) (numZeroes : Nat) (cols : List (List String × List Int))
    (s' : List Nat) (z' : Nat),
    decodeColumns numDeltas metrics stream numZeroes = some (cols, s', z') →
    cols.map Prod.fst = metrics.map Prod.fst := by
  intro metrics
  induction metrics with
  | nil =>
    intro stream numZeroes cols s' z' h
    simp only [decodeColumns, Option.some.injEq, Prod.mk.injEq] at h
    obtain ⟨rfl, -, -⟩ := h
    rfl
  | cons p rest ih =>
    obtain ⟨key, seed⟩ := p
    intro stream numZeroes cols s' z' h
    simp only [decodeColumns] at h
    split at h
    · exact absurd h (by simp)
    · rename_i vs s0 z0 heq
      split at h
      · exact absurd h (by simp)
      · rename_i cols0 s1 z1 heq2
        simp only [Option.some.injEq, Prod.mk.injEq] at h
        obtain ⟨rfl, -, -⟩ := h
        simp only [List.map_cons]
        rw [ih _ _ _ _ _ heq2]

theorem lookupCanon_insertCanon {α : Type} (m : List (List String × α)) (k : List String)
    (v : α) (s : String) :
    lookupCanon (insertCanon m k v) s = if canon k = s then some v else lookupCanon m s := by
  induction m with
  | nil => rfl
  | cons kv rest ih =>
    simp only [insertCanon]
    by_cases hk : canon kv.1 = canon k
    · simp only [if_pos hk, lookupCanon, hk]
      by_cases hs : canon k = s <;> simp [hs]
    · simp only [if_neg hk, lookupCanon, ih]
      by_cases hs1 : canon kv.1 = s
      · have hks : canon k ≠ s := fun h => hk (by rw [hs1, h])
        simp [hs1, hks]
      · simp [hs1]

theorem lookupCanon_foldl_isSome {α : Type} : ∀ (l : List (List String × α))
    (m : List (List String × α)) (s : String),
    (lookupCanon (l.foldl (fun acc kv => insertCanon acc kv.1 kv.2) m) s).isSome
      ↔ (∃ kv ∈ l, canon kv.1 = s) ∨ (lookupCanon m s).isSome := by
  intro l
  induction l with
  | nil =>
    intro m s
    simp only [List.foldl_nil, List.not_mem_nil, false_and, exists_false, false_or]
  | cons kv rest ih =>
    intro m s
    simp only [List.foldl_cons, ih, List.mem_cons]
    constructor
    · rintro (⟨kv', hkv', hc⟩ | hm)
      · exact Or.inl ⟨kv', Or.inr hkv', hc⟩
      · rw [lookupCanon_insertCanon] at hm
        by_cases hc : canon kv.1 = s
        · exact Or.inl ⟨kv, Or.inl rfl, hc⟩
        · rw [if_neg hc] at hm
          exact Or.inr hm
    · rintro (⟨kv', hkv' | hkv', hc⟩ | hm)
      · subst hkv'
        right
        rw [lookupCanon_insertCanon, if_pos hc]
        rfl
      · exact Or.inl ⟨kv', hkv', hc⟩
      · right
        rw [lookupCanon_insertCanon]
        by_cases hc : canon kv.1 = s
        · rw [if_pos hc]
          rfl
        · rw [if_neg hc]
          exact hm

/-- Membership of a key in a built map. -/
theorem lookupCanon_buildMap_isSome {α : Type} (l : List (List String × α)) (s : String) :
    (lookupCanon (buildMap l) s).isSome ↔ ∃ kv ∈ l, canon kv.1 = s := by
  rw [buildMap, lookupCanon_foldl_isSome]
  simp only [lookupCanon, Option.isSome_none, Bool.false_eq_true, or_false]

/-- Transfer of key membership along equal key sequences. -/
theorem exists_canon_of_map_fst_eq {α β : Type} {l1 : List (List String × α)}
    {l2 : List (List String × β)} (h : l1.map Prod.fst = l2.map Prod.fst) (s : String) :
    (∃ kv ∈ l1, canon kv.1 = s) ↔ ∃ kv ∈ l2, canon kv.1 = s := by
  constructor
  · rintro ⟨kv, hkv, hc⟩
    have hmem : kv.1 ∈ l2.map Prod.fst := by
      rw [← h]
      exact List.mem_map_of_mem _ hkv
    obtain ⟨kv', hkv', heq⟩ := List.mem_map.mp hmem
    exact ⟨kv', hkv', by rw [heq]; exact hc⟩
  · rintro ⟨kv, hkv, hc⟩
    have hmem : kv.1 ∈ l1.map Prod.fst := by
      rw [h]
      exact List.mem_map_of_mem _ hkv
    obtain ⟨kv', hkv', heq⟩ := List.mem_map.mp hmem
    exact ⟨kv', hkv', by rw [heq]; exact hc⟩

/-- **C10 counterexample.** A block whose reference document holds a
`start` date-time of `-1` milliseconds: the walk emits the `start` key,
yet finishing panics rather than succeeding, because
`unix_millis_to_timestamp (-1)` computes `(-1 % 1000) as u32 = 4294967295`
whose wrapped nanosecond product `4293967296` exceeds chrono's bound, so
`DateTime::from_timestamp(..).unwrap()` panics. -/
theorem finish_start_cx :
    (∃ kv ∈ collectMetrics [("start", BVal.dateTime (-1))], canon kv.1 = "start") ∧
    decodeDataBlock [("start", BVal.dateTime (-1))] 0 [] = .panic := by
  constructor
  · exact ⟨(["start"], -1),
      by simp [collectMetrics, collectElementMetrics, collectFields], by decide⟩
  · simp +decide [decodeDataBlock, decodeDeltas, decodeColumns, decodeColumn,
      collectMetrics, collectElementMetrics, collectFields, finish, buildMap,
      insertCanon, lookupCanon, canon, timestampColumn, unix_millis_to_timestamp]

/-- **C10 amended.** Finishing the decode of a data block requires that
the walked reference document emitted a metric whose key path is exactly
the single segment `"start"`: when such a metric was emitted, the map
lookup succeeds and — provided every value of that column survives the
`unix_millis_to_timestamp` conversion — the finish step succeeds with
the timestamp vector built from that column, while a value on which the
conversion's `unwrap` fails makes the finish step panic; for every block
without a `"start"` metric the finish step panics on the map lookup
instead of returning a decode error. -/
theorem finish_requires_start (refDoc : List (String × BVal)) (numDeltas : Nat)
    (stream : List Nat) (cols : List (List String × List Int)) (s' : List Nat) (z' : Nat)
    (hdec : decodeDeltas numDeltas (collectMetrics refDoc) stream = some (cols, s', z')) :
    ((∃ kv ∈ collectMetrics refDoc, canon kv.1 = "start") →
      ∃ startCol, lookupCanon (buildMap cols) "start" = some startCol ∧
        (∀ ts, timestampColumn startCol = some ts →
          decodeDataBlock refDoc numDeltas stream = .ok ⟨ts, buildMap cols⟩) ∧
        (timestampColumn startCol = none →
          decodeDataBlock refDoc numDeltas stream = .panic)) ∧
    ((¬ ∃ kv ∈ collectMetrics refDoc, canon kv.1 = "start") →
      decodeDataBlock refDoc numDeltas stream = .panic) := by
  have hkeys := decodeColumns_keys numDeltas (collectMetrics refDoc) stream 0 cols s' z' hdec
  have hmem := exists_canon_of_map_fst_eq hkeys "start"
  constructor
  · intro hstart
    have hsome : (lookupCanon (buildMap cols) "start").isSome := by
      rw [lookupCanon_buildMap_isSome]
      exact hmem.mpr hstart
    obtain ⟨startCol, hlook⟩ := Option.isSome_iff_exists.mp hsome
    refine ⟨startCol, hlook, ?_, ?_⟩
    · intro ts hts
      simp only [decodeDataBlock, hdec, finish, hlook, hts]
    · intro hts
      simp only [decodeDataBlock, hdec, finish, hlook, hts]
  · intro hno
    have hnone : lookupCanon (buildMap cols) "start" = none := by
      by_contra hne
      have : (lookupCanon (buildMap cols) "start").isSome := by
        cases hcase : lookupCanon (buildMap cols) "start" with
        | none => exact absurd hcase hne
        | some v => rfl
      rw [lookupCanon_buildMap_isSome] at this
      exact hno (hmem.mp this)
    simp only [decodeDataBlock, hdec, finish, hnone]

/-- Witness for C10: a block whose reference document is a single
top-level `start` date-time inside chrono's range, with no deltas. -/
theorem finish_requires_start_witness :
    decodeDeltas 0 (collectMetrics [("start", BVal.dateTime 1700000000000)]) []
        = some ([(["start"], [1700000000000])], [], 0) ∧
    (∃ kv ∈ collectMetrics [("start", BVal.dateTime 1700000000000)], canon kv.1 = "start") ∧
    decodeDataBlock [("start", BVal.dateTime 1700000000000)] 0 []
      = .ok ⟨[1700000000000], buildMap [(["start"], [(1700000000000 : Int)])]⟩ := by
  have hdec : decodeDeltas 0 (collectMetrics [("start", BVal.dateTime 1700000000000)]) []
      = some ([(["start"], [1700000000000])], [], 0) := by
    simp [decodeDeltas, decodeColumns, decodeColumn, collectMetrics,
      collectElementMetrics, collectFields]
  have hstart : ∃ kv ∈ collectMetrics [("start", BVal.dateTime 1700000000000)],
      canon kv.1 = "start" :=
    ⟨(["start"], 1700000000000),
      by simp [collectMetrics, collectElementMetrics, collectFields], by decide⟩
  refine ⟨hdec, hstart, ?_⟩
  obtain ⟨startCol, hlook, hok, -⟩ :=
    (finish_requires_start [("start", BVal.dateTime 1700000000000)] 0 []
      [(["start"], [1700000000000])] [] 0 hdec).1 hstart
  have hl2 : lookupCanon (buildMap [(["start"], [(1700000000000 : Int)])]) "start"
      = some [1700000000000] := by
    simp +decide [buildMap, insertCanon, lookupCanon, canon]
  have hsc : startCol = [1700000000000] := Option.some.inj (hlook.symm.trans hl2)
  subst hsc
  exact hok [1700000000000]
    (by simp +decide [timestampColumn, unix_millis_to_timestamp])

/-- **C5 counterexample.** For the reference document
`{"start": DateTime(1700000000000), "m": 10i64}` with `metric_count = 2`,
`delta_count = 3` and delta stream bytes `[0x00, 0x02]`, the zero run
covers only three of the six needed delta slots; decoding the second
column hits end of stream, so the block decode returns an error instead
of succeeding as the claim states. -/
theorem block_decode_scenario2_fails :
    decodeDataBlock [("start", BVal.dateTime 1700000000000), ("m", BVal.int64 10)] 3 [0, 2]
      = .error := by
  have hwalk : collectMetrics [("start", BVal.dateTime 1700000000000), ("m", BVal.int64 10)]
      = [(["start"], 1700000000000), (["m"], 10)] := by
    simp [collectMetrics, collectElementMetrics, collectFields]
  have hread : readLEB [0, 2] = some (0, [2]) := by
    norm_num [readLEB, readLEBAux]
  have hread2 : readLEB [2] = some (2, []) := by
    norm_num [readLEB, readLEBAux]
  have hcol1 : decodeColumn 1700000000000 3 [0, 2] 0
      = some (List.replicate 3 1700000000000, [], 0) := by
    rw [decodeColumn_step_zero 1700000000000 3 [0, 2] [2] [] 2 (by omega) hread hread2]
    rw [show ((2 : Nat) + 1) % 2 ^ 64 = 3 from by norm_num]
    rw [decodeColumn_zeros 1700000000000 3 [] 3 le_rfl]
  have hcol2 : decodeColumn (10 : Int) 3 ([] : List Nat) 0 = none := by
    have hnone : readLEB ([] : List Nat) = none := rfl
    unfold decodeColumn
    rw [if_neg (by omega : ¬(3 : Nat) = 0), if_neg (lt_irrefl 0)]
    split
    · rfl
    · rename_i d s1 heq
      rw [hnone] at heq
      exact absurd heq (by simp)
  simp only [decodeDataBlock, decodeDeltas, hwalk, decodeColumns, hcol1, hcol2]

/-- **C5 amended.** Same block, but with delta stream bytes
`[0x00, 0x05]` — a zero run covering all `2 × 3` delta slots: decoding
succeeds, the `start` column is four copies of `1700000000000`, the `m`
column is four copies of `10`, and the timestamp vector has length 4. -/
theorem block_decode_scenario2_amended :
    ∃ chunk, decodeDataBlock
        [("start", BVal.dateTime 1700000000000), ("m", BVal.int64 10)] 3 [0, 5]
        = .ok chunk ∧
      chunk.metrics
        = [(["start"], [1700000000000, 1700000000000, 1700000000000, 1700000000000]),
           (["m"], [10, 10, 10, 10])] ∧
      chunk.timestamps = [1700000000000, 1700000000000, 1700000000000, 1700000000000] ∧
      chunk.timestamps.length = 4 := by
  have hwalk : collectMetrics [("start", BVal.dateTime 1700000000000), ("m", BVal.int64 10)]
      = [(["start"], 1700000000000), (["m"], 10)] := by
    simp [collectMetrics, collectElementMetrics, collectFields]
  have hread : readLEB [0, 5] = some (0, [5]) := by
    norm_num [readLEB, readLEBAux]
  have hread2 : readLEB [5] = some (5, []) := by
    norm_num [readLEB, readLEBAux]
  have hcol1 : decodeColumn 1700000000000 3 [0, 5] 0
      = some (List.replicate 3 1700000000000, [], 3) := by
    rw [decodeColumn_step_zero 1700000000000 3 [0, 5] [5] [] 5 (by omega) hread hread2]
    rw [show ((5 : Nat) + 1) % 2 ^ 64 = 6 from by norm_num]
    rw [decodeColumn_zeros 1700000000000 3 [] 6 (by omega)]
  have hcol2 : decodeColumn (10 : Int) 3 ([] : List Nat) 3
      = some (List.replicate 3 10, [], 0) := by
    rw [decodeColumn_zeros (10 : Int) 3 [] 3 le_rfl]
  refine ⟨⟨[1700000000000, 1700000000000, 1700000000000, 1700000000000],
      [(["start"], [1700000000000, 1700000000000, 1700000000000, 1700000000000]),
       (["m"], [10, 10, 10, 10])]⟩, ?_, rfl, rfl, rfl⟩
  simp only [decodeDataBlock, decodeDeltas, hwalk, decodeColumns, hcol1, hcol2]
  simp +decide [finish, buildMap, insertCanon, lookupCanon, canon, List.replicate,
    timestampColumn, unix_millis_to_timestamp]

/-!
## Descriptors and the dataset store

`Descriptor` / `Descriptors` (`src/metric.rs`) and `DataSet`
(`src/main.rs`).  A descriptor's id is its index in the `by_id` vector;
the `by_key` multimap always holds exactly the keys of the registered
descriptors, so `contains_key` is modelled as a scan of `by_id`.
Column values are `Option ℚ` (`none` = NaN).
-/

structure DescriptorM : Type where
  key : List String
  name : String
  scale : ℚ

/-- `Descriptor::default_for_key`: display name is the segments joined
with spaces, scale 1.0. -/
def defaultForKey (key : List String) : DescriptorM :=
  ⟨key, String.intercalate " " key, 1⟩

structure DescriptorsM : Type where
  byId : List DescriptorM
  transients : List DescriptorM

/-- `Descriptors::contains_key`: whether any registered descriptor has
this key (`by_key` holds exactly the registered keys). -/
def descriptorsContainsKey (descs : DescriptorsM) (key : List String) : Bool :=
  descs.byId.any fun d => canon d.key == canon key

/-- `Descriptors::add`: register (assigning the next id, i.e. the next
index of `by_id`) and push to `transients`. -/
def descriptorsAdd (descs : DescriptorsM) (d : DescriptorM) : DescriptorsM :=
  ⟨descs.byId ++ [d], descs.transients ++ [d]⟩

structure DataSetM : Type where
  descriptors : DescriptorsM
  metadata : List (String × Int)
  timestamps : List Int
  rawData : List (List String × List (Option ℚ))

def emptyDataSet : DataSetM := ⟨⟨[], []⟩, [], [], []⟩

/-- The `Chunk::Data` arm of the ingestion loop
(`src/main.rs:60-86`): existing columns are extended with the block's
values or with one NaN per new timestamp; keys new in the block get a
column prefilled with one NaN per pre-existing timestamp, and a default
descriptor when none is registered for the key; finally the block's
timestamps are appended. -/
def appendBlock (ds : DataSetM) (chunk : MetricsChunkM) : DataSetM :=
  let numValues := chunk.timestamps.length
  let updated := ds.rawData.map fun kv =>
    match lookupCanon chunk.metrics (canon kv.1) with
    | some chunkValues => (kv.1, kv.2 ++ chunkValues.map fun (v : Int) => some ((v : ℚ)))
    | none => (kv.1, kv.2 ++ List.replicate numValues (none : Option ℚ))
  let fresh := chunk.metrics.filter fun kv => (lookupCanon ds.rawData (canon kv.1)).isNone
  let descs := fresh.foldl
    (fun d kv =>
      if descriptorsContainsKey d kv.1 then d else descriptorsAdd d (defaultForKey kv.1))
    ds.descriptors
  let newCols := fresh.map fun kv =>
    (kv.1, List.replicate ds.timestamps.length (none : Option ℚ)
      ++ kv.2.map fun (v : Int) => some ((v : ℚ)))
  { descriptors := descs
    metadata := ds.metadata
    timestamps := ds.timestamps ++ chunk.timestamps
    rawData := updated ++ newCols }

/-!
## The container reader and the ingestion loop

`read_chunk_len` (`src/ftdc.rs:54-62`) and the `loop` of
`DataSet::open_ftdc_file` (`src/main.rs:50-91`).  I/O is abstracted as
the outcome of each read; the body parse of a container is abstracted as
the outcome it produces.
-/

inductive IoErrorKind : Type where
  | unexpectedEof
  | other (tag : Nat)
deriving DecidableEq

inductive IoResult (α : Type) : Type where
  | ok (a : α)
  | err (kind : IoErrorKind)

/-- The error taxonomy (`src/ftdc/error.rs`), restricted to the kinds the
claims distinguish: the distinct end-of-stream kind, wrapped I/O errors,
and all parse/format failures collapsed into `parse`. -/
inductive FtdcError : Type where
  | EOF
  | ioErr (kind : IoErrorKind)
  | parse
deriving DecidableEq

/-- `read_chunk_len`: an `UnexpectedEof` while reading the 4-byte length
prefix becomes the distinct `Error::EOF`; any other I/O failure is
wrapped as an ordinary I/O error. -/
def read_chunk_len (r : IoResult Nat) : Except FtdcError Nat :=
  match r with
  | .ok len => .ok len
  | .err .unexpectedEof => .error .EOF
  | .err k => .error (.ioErr k)

inductive ChunkM : Type where
  | metadata (doc : List (String × Int))
  | data (chunk : MetricsChunkM)

/-- `read_chunk`: reads the length prefix first (propagating its error
with `?`), then parses the rest of the container, abstracted here as the
outcome `parseRest`. -/
def read_chunk (lenRead : IoResult Nat) (parseRest : Except FtdcError ChunkM) :
    Except FtdcError ChunkM :=
  match read_chunk_len lenRead with
  | .error e => .error e
  | .ok _ => parseRest

/-- One iteration of the ingestion loop body on a successfully read
chunk: the first metadata document is kept (later ones dropped), data
chunks are appended to the store. -/
def applyChunk (ds : DataSetM) (c : ChunkM) : DataSetM :=
  match c with
  | .metadata doc => if ds.metadata.isEmpty then { ds with metadata := doc } else ds
  | .data chunk => appendBlock ds chunk

/-- The `loop` of `open_ftdc_file` over the successive `read_chunk`
outcomes: `Err(EOF)` is normal termination (`return Ok(())`), any other
error propagates, and `Ok` chunks are applied in order.  (A finite
archive always ends in an `EOF` outcome; an exhausted outcome list is
likewise normal termination.) -/
def openLoop (ds : DataSetM) : List (Except FtdcError ChunkM) → Except FtdcError DataSetM
  | [] => .ok ds
  | .error .EOF :: _ => .ok ds
  | .error e :: _ => .error e
  | .ok c :: rest => openLoop (applyChunk ds c) rest

/-- `open_ftdc_file`: clears metadata, timestamps and raw data (but not
the descriptor table), then runs the loop. -/
def open_ftdc_file (ds : DataSetM) (chunks : List (Except FtdcError ChunkM)) :
    Except FtdcError DataSetM :=
  openLoop { ds with metadata := [], timestamps := [], rawData := [] } chunks

/-- The `DataSetLoaded` update built in `main` (`src/main.rs:182-189`):
`timestamps.first().unwrap()` and `timestamps.last().unwrap()`; the
`unwrap` panics (`none`) when the store is empty. -/
def datasetLoadedUpdate (ds : DataSetM) : Option (Int × Int) :=
  match ds.timestamps.head?, ds.timestamps.getLast? with
  | some s, some e => some (s, e)
  | _, _ => none

/-- **C6.** End of stream while reading the 4-byte length prefix at a
container boundary is returned as the distinct `EOF` error kind, which
the ingestion loop treats as normal successful termination; every other
I/O failure while reading the length is returned as an ordinary error
that propagates and aborts ingestion. -/
theorem eof_is_normal_termination :
    (read_chunk_len (.err .unexpectedEof) = .error .EOF) ∧
    (∀ tag, read_chunk_len (.err (.other tag)) = .error (.ioErr (.other tag))) ∧
    (∀ (ds : DataSetM) (rest : List (Except FtdcError ChunkM)) (parseRest),
      openLoop ds (read_chunk (.err .unexpectedEof) parseRest :: rest) = .ok ds) ∧
    (∀ (ds : DataSetM) (rest : List (Except FtdcError ChunkM)) (parseRest tag),
      openLoop ds (read_chunk (.err (.other tag)) parseRest :: rest)
        = .error (.ioErr (.other tag))) ∧
    (∀ (ds : DataSetM) (rest : List (Except FtdcError ChunkM)) (e : FtdcError),
      e ≠ .EOF → openLoop ds (.error e :: rest) = .error e) := by
  refine ⟨rfl, fun tag => rfl, fun ds rest parseRest => rfl,
    fun ds rest parseRest tag => rfl, fun ds rest e he => ?_⟩
  cases e with
  | EOF => exact absurd rfl he
  | ioErr k => rfl
  | parse => rfl

/-- Witness for C6: a non-EOF error aborts ingestion. -/
theorem eof_is_normal_termination_witness :
    (FtdcError.ioErr (.other 7) ≠ FtdcError.EOF) ∧
    openLoop emptyDataSet [.error (.ioErr (.other 7))] = .error (.ioErr (.other 7)) :=
  ⟨by simp, eof_is_normal_termination.2.2.2.2 emptyDataSet [] (.ioErr (.other 7)) (by simp)⟩

/-- **C9 (the code panics).** Ingesting an archive that contains a single
metadata container and then end of stream succeeds and leaves the
timestamp vector empty; the subsequent `DataSetLoaded` update then
panics on `timestamps.first().unwrap()` instead of failing recoverably. -/
theorem empty_store_endpoints_panic :
    open_ftdc_file emptyDataSet [.ok (.metadata [("hostname", 1)]), .error .EOF]
      = .ok ⟨⟨[], []⟩, [("hostname", 1)], [], []⟩ ∧
    (⟨⟨[], []⟩, [("hostname", 1)], [], []⟩ : DataSetM).timestamps = [] ∧
    datasetLoadedUpdate ⟨⟨[], []⟩, [("hostname", 1)], [], []⟩ = none := by
  refine ⟨?_, rfl, rfl⟩
  simp [open_ftdc_file, openLoop, applyChunk, emptyDataSet]

/-- A successful canonical lookup comes from a member of the list. -/
theorem lookupCanon_mem {α : Type} : ∀ (m : List (List String × α)) (s : String) (v : α),
    lookupCanon m s = some v → ∃ k, (k, v) ∈ m := by
  intro m
  induction m with
  | nil => intro s v h; exact absurd h (by simp [lookupCanon])
  | cons kv rest ih =>
    intro s v h
    simp only [lookupCanon] at h
    split at h
    · simp only [Option.some.injEq] at h
      subst h
      exact ⟨kv.1, by simp⟩
    · obtain ⟨k, hk⟩ := ih s v h
      exact ⟨k, by simp [hk]⟩

/-- **C7.** After every block append during archive ingestion, every
column's length equals the global timestamp vector's length: columns
present in the store but absent from the block are extended with one
absent (NaN) per new timestamp, and columns new in the block are
prefilled with one absent per pre-existing timestamp before the block's
values are appended. -/
theorem append_block_alignment (ds : DataSetM) (chunk : MetricsChunkM)
    (hds : ∀ kv ∈ ds.rawData, kv.2.length = ds.timestamps.length)
    (hchunk : ∀ kv ∈ chunk.metrics, kv.2.length = chunk.timestamps.length) :
    (∀ kv ∈ (appendBlock ds chunk).rawData,
        kv.2.length = (appendBlock ds chunk).timestamps.length) ∧
    (∀ kv ∈ ds.rawData, lookupCanon chunk.metrics (canon kv.1) = none →
        (kv.1, kv.2 ++ List.replicate chunk.timestamps.length (none : Option ℚ))
          ∈ (appendBlock ds chunk).rawData) ∧
    (∀ kv ∈ chunk.metrics, lookupCanon ds.rawData (canon kv.1) = none →
        (kv.1, List.replicate ds.timestamps.length (none : Option ℚ)
            ++ kv.2.map fun (v : Int) => some ((v : ℚ)))
          ∈ (appendBlock ds chunk).rawData) := by
  refine ⟨?_, ?_, ?_⟩
  · intro kv hkv
    simp only [appendBlock, List.mem_append, List.mem_map, List.mem_filter] at hkv
    simp only [appendBlock, List.length_append]
    rcases hkv with ⟨kv0, hkv0, heq⟩ | ⟨kv0, ⟨hkv0, -⟩, heq⟩
    · subst heq
      cases hlook : lookupCanon chunk.metrics (canon kv0.1) with
      | none =>
        simp only [hlook, List.length_append, List.length_replicate]
        rw [hds kv0 hkv0]
      | some chunkValues =>
        obtain ⟨k', hk'⟩ := lookupCanon_mem _ _ _ hlook
        have hlen := hchunk (k', chunkValues) hk'
        simp only [hlook, List.length_append, List.length_map]
        rw [hds kv0 hkv0, hlen]
    · subst heq
      have hlen := hchunk kv0 hkv0
      simp only [List.length_append, List.length_replicate, List.length_map]
      rw [hlen]
  · intro kv hkv hlook
    simp only [appendBlock, List.mem_append]
    left
    refine List.mem_map.mpr ⟨kv, hkv, ?_⟩
    rw [hlook]
  · intro kv hkv hlook
    simp only [appendBlock, List.mem_append]
    right
    refine List.mem_map.mpr ⟨kv, List.mem_filter.mpr ⟨hkv, ?_⟩, rfl⟩
    rw [hlook]
    rfl

/-- Witness for C7: a store holding column `a` over one timestamp, and a
chunk holding column `b` over one timestamp. -/
theorem append_block_alignment_witness :
    (∀ kv ∈ (⟨⟨[], []⟩, [], [0], [(["a"], [some 1])]⟩ : DataSetM).rawData,
        kv.2.length = (⟨⟨[], []⟩, [], [0], [(["a"], [some 1])]⟩ : DataSetM).timestamps.length) ∧
    (∀ kv ∈ (⟨[5], [(["b"], [2])]⟩ : MetricsChunkM).metrics,
        kv.2.length = (⟨[5], [(["b"], [2])]⟩ : MetricsChunkM).timestamps.length) ∧
    (∀ kv ∈ (appendBlock ⟨⟨[], []⟩, [], [0], [(["a"], [some 1])]⟩ ⟨[5], [(["b"], [2])]⟩).rawData,
        kv.2.length
          = (appendBlock ⟨⟨[], []⟩, [], [0], [(["a"], [some 1])]⟩
              ⟨[5], [(["b"], [2])]⟩).timestamps.length) := by
  have h1 : ∀ kv ∈ (⟨⟨[], []⟩, [], [0], [(["a"], [some 1])]⟩ : DataSetM).rawData,
      kv.2.length = (⟨⟨[], []⟩, [], [0], [(["a"], [some 1])]⟩ : DataSetM).timestamps.length := by
    intro kv hkv
    simp only [List.mem_singleton] at hkv
    subst hkv
    rfl
  have h2 : ∀ kv ∈ (⟨[5], [(["b"], [2])]⟩ : MetricsChunkM).metrics,
      kv.2.length = (⟨[5], [(["b"], [2])]⟩ : MetricsChunkM).timestamps.length := by
    intro kv hkv
    simp only [List.mem_singleton] at hkv
    subst hkv
    rfl
  exact ⟨h1, h2,
    (append_block_alignment ⟨⟨[], []⟩, [], [0], [(["a"], [some 1])]⟩ ⟨[5], [(["b"], [2])]⟩
      h1 h2).1⟩

/-!
## The sampler

`DataSet::sample_metrics` (`src/main.rs:106-159`).  `binarySearchLoop`
is the algorithm of Rust's `slice::binary_search` (`Ok`/`Err` becomes the
`Bool` component).  The stride loop and the tail emission are modelled
with the store's release-profile `usize` arithmetic: `end_idx - start_idx`
and `idx - 1` wrap, and every out-of-bounds `Vec` index is a panic
(`none`).  `sample_time += delta` is wrapping `i64` addition.  Division
of the window span by `num_samples as i64` panics when it is zero.
-/

def binarySearchLoop (xs : List Int) (t : Int) (left right : Nat) : Bool × Nat :=
  if left < right then
    -- `get_unchecked(mid)`: in bounds whenever `left ≤ right ≤ xs.length`,
    -- which `binarySearch` establishes and the loop preserves
    if xs.getD ((left + right) / 2) 0 < t then
      binarySearchLoop xs t ((left + right) / 2 + 1) right
    else if t < xs.getD ((left + right) / 2) 0 then
      binarySearchLoop xs t left ((left + right) / 2)
    else (true, (left + right) / 2)
  else (false, left)
termination_by right - left
decreasing_by
· omega
· omega

/-- `slice::binary_search`: `(true, i)` models `Ok(i)` (exact hit),
`(false, i)` models `Err(i)` (insertion point). -/
def binarySearch (xs : List Int) (t : Int) : Bool × Nat :=
  binarySearchLoop xs t 0 xs.length

/-- The `while (end_idx - start_idx) >= num_samples` loop: emits
`(timestamp, value / scale)` for each index whose timestamp has reached
the virtual cursor, skipping NaN values; returns the emitted samples and
the final `start_idx`. -/
def strideLoop (ts : List Int) (vals : List (Option ℚ)) (scale : ℚ)
    (endIdx numSamples : Nat) (delta : Int) (startIdx : Nat) (sampleTime : Int) :
    Option (List (Int × ℚ) × Nat) :=
  if numSamples ≤ usizeSub endIdx startIdx then
    match hts : ts[startIdx]? with
    | none => none
    | some startTime =>
      if sampleTime ≤ startTime then
        match vals[startIdx]? with
        | none => none
        | some v =>
          match strideLoop ts vals scale endIdx numSamples delta (startIdx + 1)
              (wrap64 (sampleTime + delta)) with
          | none => none
          | some (rest, finalIdx) =>
            match v with
            | none => some (rest, finalIdx)
            | some q => some ((startTime, q / scale) :: rest, finalIdx)
      else
        strideLoop ts vals scale endIdx numSamples delta (startIdx + 1) sampleTime
  else
    some ([], startIdx)
termination_by ts.length - startIdx
decreasing_by
all_goals
  have hlt : startIdx < ts.length := by
    by_contra hge
    rw [List.getElem?_eq_none (by omega)] at hts
    exact absurd hts (by simp)
  omega

/-- The tail `samples.extend((start_idx..=end_idx) ...)`: emit every
non-NaN point of the inclusive index range verbatim. -/
def tailEmit (ts : List Int) (vals : List (Option ℚ)) (scale : ℚ) (idx endIdx : Nat) :
    Option (List (Int × ℚ)) :=
  if idx ≤ endIdx then
    match vals[idx]? with
    | none => none
    | some none => tailEmit ts vals scale (idx + 1) endIdx
    | some (some q) =>
      match ts[idx]? with
      | none => none
      | some t =>
        match tailEmit ts vals scale (idx + 1) endIdx with
        | none => none
        | some rest => some ((t, q / scale) :: rest)
  else some []
termination_by endIdx + 1 - idx

/-- The `end_idx` computation of `sample_metrics`: the exact hit index
on `Ok`, the insertion point minus one on `Err` — where `idx - 1` is a
wrapping (release-profile) `usize` subtraction. -/
def sampleEndIdx (ts : List Int) (hi : Int) : Nat :=
  match binarySearch ts hi with
  | (true, idx) => idx
  | (false, idx) => usizeSub idx 1

/-- The per-id body of `sample_metrics`: resolve the descriptor (a panic
for an unregistered id), locate its column (an empty series when the key
has no column), binary-search the window bounds, then run the stride
loop followed by the tail emission. -/
def sampleMetricsOne (ds : DataSetM) (id : Nat) (lo hi : Int) (numSamples : Nat) :
    Option (List (Int × ℚ)) :=
  match ds.descriptors.byId[id]? with
  | none => none
  | some desc =>
    match lookupCanon ds.rawData (canon desc.key) with
    | none => some []
    | some values =>
      if numSamples = 0 then none
      else
        match strideLoop ds.timestamps values desc.scale (sampleEndIdx ds.timestamps hi)
            numSamples ((hi - lo).tdiv (toSigned64 numSamples))
            (binarySearch ds.timestamps lo).2 lo with
        | none => none
        | some (samples, finalIdx) =>
          match tailEmit ds.timestamps values desc.scale finalIdx
              (sampleEndIdx ds.timestamps hi) with
          | none => none
          | some rest => some (samples ++ rest)

/-- `HashMap<usize, _>` insertion (later ids overwrite earlier ones). -/
def mapInsertNat {α : Type} : List (Nat × α) → Nat → α → List (Nat × α)
  | [], k, v => [(k, v)]
  | kv :: rest, k, v => if kv.1 = k then (k, v) :: rest else kv :: mapInsertNat rest k v

def sampleMetricsGo (ds : DataSetM) (lo hi : Int) (numSamples : Nat) :
    List Nat → List (Nat × List (Int × ℚ)) → Option (List (Nat × List (Int × ℚ)))
  | [], acc => some acc
  | id :: rest, acc =>
    match sampleMetricsOne ds id lo hi numSamples with
    | none => none
    | some s => sampleMetricsGo ds lo hi numSamples rest (mapInsertNat acc id s)

/-- `DataSet::sample_metrics` over a list of ids.  A panic while sampling
any id aborts the whole call (`none`). -/
def sample_metrics (ds : DataSetM) (ids : List Nat) (lo hi : Int) (numSamples : Nat) :
    Option (List (Nat × List (Int × ℚ))) :=
  sampleMetricsGo ds lo hi numSamples ids []

/-- **C2 counterexample.** Two sampler inputs that fault: an id not
registered in the descriptor table panics on the `by_id` index, and a
window containing no timestamps (empty store) wraps `end_idx` to
`2^64 - 1` and panics indexing the timestamp vector — neither yields an
empty series. -/
theorem sample_metrics_faults_cx :
    sample_metrics ⟨⟨[⟨["a"], "a", 1⟩], []⟩, [], [0], [(["a"], [some 1])]⟩ [1] 0 0 1
      = none ∧
    sample_metrics ⟨⟨[⟨["a"], "a", 1⟩], []⟩, [], [], [(["a"], [])]⟩ [0] 0 0 1
      = none := by
  constructor
  · simp [sample_metrics, sampleMetricsGo, sampleMetricsOne]
  · simp +decide [sample_metrics, sampleMetricsGo, sampleMetricsOne, sampleEndIdx,
      binarySearch, binarySearchLoop, lookupCanon, canon, usizeSub, strideLoop]

/-- **C2 amended.** An id that is registered but whose key has no column
in the store yields an empty series for that id and the operation does
not fault; but an id that is not registered in the descriptor table, or
a window that contains no timestamps, makes the operation panic (an
out-of-bounds `by_id` index, respectively an index underflow followed by
an out-of-bounds timestamp access) rather than yield an empty series. -/
theorem sample_metrics_missing_column_empty (ds : DataSetM) (id : Nat) (lo hi : Int)
    (numSamples : Nat) (desc : DescriptorM)
    (hid : ds.descriptors.byId[id]? = some desc)
    (hcol : lookupCanon ds.rawData (canon desc.key) = none) :
    sample_metrics ds [id] lo hi numSamples = some [(id, [])] := by
  simp [sample_metrics, sampleMetricsGo, sampleMetricsOne, hid, hcol, mapInsertNat]

/-- Witness for C2 (amended): descriptor 0 exists for key `b`, which has
no column in the store. -/
theorem sample_metrics_missing_column_empty_witness :
    (⟨⟨[⟨["b"], "b", 1⟩], []⟩, [], [0], [(["a"], [some 1])]⟩ :
        DataSetM).descriptors.byId[0]? = some ⟨["b"], "b", 1⟩ ∧
    lookupCanon (⟨⟨[⟨["b"], "b", 1⟩], []⟩, [], [0], [(["a"], [some 1])]⟩ :
        DataSetM).rawData (canon ["b"]) = none ∧
    sample_metrics ⟨⟨[⟨["b"], "b", 1⟩], []⟩, [], [0], [(["a"], [some 1])]⟩ [0] 0 5 10
      = some [(0, [])] :=
  ⟨rfl, by decide,
   sample_metrics_missing_column_empty _ 0 0 5 10 ⟨["b"], "b", 1⟩ rfl (by decide)⟩

/-- In a `(· ≤ ·)`-sorted list, values are monotone in the index. -/
theorem sorted_getD_mono {xs : List Int} (hs : List.Pairwise (· ≤ ·) xs) {i j : Nat}
    (hij : i ≤ j) (hj : j < xs.length) : xs.getD i 0 ≤ xs.getD j 0 := by
  rcases Nat.lt_or_ge i j with hlt | hge
  · have hi : i < xs.length := lt_trans hlt hj
    rw [List.getD_eq_getElem xs 0 hi, List.getD_eq_getElem xs 0 hj]
    exact List.pairwise_iff_getElem.mp hs i j hi hj hlt
  · have hij' : i = j := by omega
    subst hij'
    exact le_rfl

/-- Invariant-carrying specification of the binary search loop over a
sorted list. -/
theorem binarySearchLoop_spec (xs : List Int) (t : Int)
    (hs : List.Pairwise (· ≤ ·) xs) : ∀ (fuel left right : Nat),
    right - left ≤ fuel → left ≤ right → right ≤ xs.length →
    (∀ j, j < left → xs.getD j 0 < t) →
    (∀ j, right ≤ j → j < xs.length → t < xs.getD j 0) →
    (match binarySearchLoop xs t left right with
     | (true, i) => i < xs.length ∧ xs.getD i 0 = t
     | (false, i) => i ≤ xs.length ∧ (∀ j, j < i → xs.getD j 0 < t) ∧
         (∀ j, i ≤ j → j < xs.length → t < xs.getD j 0)) := by
  intro fuel
  induction fuel with
  | zero =>
    intro left right hfuel hlr hright hlo hhi
    have hnlt : ¬left < right := by omega
    unfold binarySearchLoop
    rw [if_neg hnlt]
    refine ⟨by omega, hlo, fun j hj hjl => hhi j (by omega) hjl⟩
  | succ fuel ih =>
    intro left right hfuel hlr hright hlo hhi
    by_cases hlt : left < right
    · have hmid : (left + right) / 2 < xs.length := by omega
      unfold binarySearchLoop
      rw [if_pos hlt]
      by_cases hx1 : xs.getD ((left + right) / 2) 0 < t
      · rw [if_pos hx1]
        refine ih ((left + right) / 2 + 1) right (by omega) (by omega) hright ?_ hhi
        intro j hj
        exact lt_of_le_of_lt (sorted_getD_mono hs (by omega) hmid) hx1
      · rw [if_neg hx1]
        by_cases hx2 : t < xs.getD ((left + right) / 2) 0
        · rw [if_pos hx2]
          refine ih left ((left + right) / 2) (by omega) (by omega) (by omega) hlo ?_
          intro j hj hjl
          exact lt_of_lt_of_le hx2 (sorted_getD_mono hs hj hjl)
        · rw [if_neg hx2]
          exact ⟨hmid, by omega⟩
    · unfold binarySearchLoop
      rw [if_neg hlt]
      refine ⟨by omega, hlo, fun j hj hjl => hhi j (by omega) hjl⟩

/-- `binary_search` `Ok`: the hit index is in range and holds the target. -/
theorem binarySearch_found {xs : List Int} {t : Int} {i : Nat}
    (hs : List.Pairwise (· ≤ ·) xs) (h : binarySearch xs t = (true, i)) :
    i < xs.length ∧ xs.getD i 0 = t := by
  have hspec := binarySearchLoop_spec xs t hs xs.length 0 xs.length le_rfl (by omega)
    le_rfl (by omega) (by omega)
  rw [binarySearch] at h
  rw [h] at hspec
  exact hspec

/-- `binary_search` `Err`: the insertion point separates the values
below the target from the values above it. -/
theorem binarySearch_notFound {xs : List Int} {t : Int} {i : Nat}
    (hs : List.Pairwise (· ≤ ·) xs) (h : binarySearch xs t = (false, i)) :
    i ≤ xs.length ∧ (∀ j, j < i → xs.getD j 0 < t) ∧
      (∀ j, i ≤ j → j < xs.length → t < xs.getD j 0) := by
  have hspec := binarySearchLoop_spec xs t hs xs.length 0 xs.length le_rfl (by omega)
    le_rfl (by omega) (by omega)
  rw [binarySearch] at h
  rw [h] at hspec
  exact hspec

/-- The index returned by `binary_search` never exceeds the length. -/
theorem binarySearch_le_length {xs : List Int} {t : Int}
    (hs : List.Pairwise (· ≤ ·) xs) : (binarySearch xs t).2 ≤ xs.length := by
  rcases hbs : binarySearch xs t with ⟨found, i⟩
  cases found
  · exact (binarySearch_notFound hs hbs).1
  · exact le_of_lt (binarySearch_found hs hbs).1

/-- Every index at or past the `start_idx` returned for the window's low
bound holds a timestamp at or above it. -/
theorem startIdx_lower {xs : List Int} {lo : Int} (hs : List.Pairwise (· ≤ ·) xs) :
    ∀ j, (binarySearch xs lo).2 ≤ j → j < xs.length → lo ≤ xs.getD j 0 := by
  intro j hj hjl
  rcases hbs : binarySearch xs lo with ⟨found, i⟩
  rw [hbs] at hj
  cases found
  · exact le_of_lt ((binarySearch_notFound hs hbs).2.2 j hj hjl)
  · obtain ⟨hi, hit⟩ := binarySearch_found hs hbs
    calc lo = xs.getD i 0 := hit.symm
    _ ≤ xs.getD j 0 := sorted_getD_mono hs hj hjl

/-- When the loop condition can never fail before the index runs off the
timestamp vector, the stride loop panics. -/
theorem strideLoop_none (ts : List Int) (vals : List (Option ℚ)) (scale : ℚ)
    (endIdx numSamples : Nat) (delta : Int)
    (hcond : ∀ i, i ≤ ts.length → numSamples ≤ usizeSub endIdx i) :
    ∀ (fuel i : Nat) (st : Int), ts.length - i ≤ fuel → i ≤ ts.length →
    strideLoop ts vals scale endIdx numSamples delta i st = none := by
  intro fuel
  induction fuel with
  | zero =>
    intro i st hfuel hi
    have hieq : i = ts.length := by omega
    unfold strideLoop
    rw [if_pos (hcond i hi)]
    have hnone : ts[i]? = none := List.getElem?_eq_none (by omega)
    split
    · rfl
    · rename_i t hts
      rw [hnone] at hts
      exact absurd hts (by simp)
  | succ fuel ih =>
    intro i st hfuel hi
    unfold strideLoop
    rw [if_pos (hcond i hi)]
    split
    · rfl
    · rename_i t hts
      have hlt : i < ts.length := by
        by_contra hge
        rw [List.getElem?_eq_none (by omega)] at hts
        exact absurd hts (by simp)
      by_cases hst : st ≤ t
      · rw [if_pos hst]
        cases hv : vals[i]? with
        | none => rfl
        | some v =>
          rw [ih (i + 1) (wrap64 (st + delta)) (by omega) (by omega)]
      · rw [if_neg hst]
        exact ih (i + 1) st (by omega) (by omega)

/-- Successful stride-loop runs only emit timestamps taken at strictly
increasing indices between the initial index and the final index, which
stays at or below `end_idx`. -/
theorem strideLoop_spec (ts : List Int) (vals : List (Option ℚ)) (scale : ℚ)
    (endIdx numSamples : Nat) (delta : Int)
    (hend : endIdx < ts.length) (hlen : ts.length + numSamples < 2 ^ 64) :
    ∀ (fuel i : Nat) (st : Int) (out : List (Int × ℚ)) (iF : Nat),
    ts.length - i ≤ fuel → i ≤ ts.length →
    strideLoop ts vals scale endIdx numSamples delta i st = some (out, iF) →
    i ≤ iF ∧ iF ≤ endIdx ∧
    ∃ js : List Nat, js.Pairwise (· < ·) ∧ (∀ j ∈ js, i ≤ j ∧ j < iF) ∧
      out.map Prod.fst = js.map (fun j => ts.getD j 0) := by
  intro fuel
  induction fuel with
  | zero =>
    intro i st out iF hfuel hi h
    have hieq : i = ts.length := by omega
    unfold strideLoop at h
    split at h
    · split at h
      · exact absurd h (by simp)
      · rename_i t hts
        rw [List.getElem?_eq_none (by omega)] at hts
        exact absurd hts (by simp)
    · rename_i hcond
      simp only [Option.some.injEq, Prod.mk.injEq] at h
      obtain ⟨rfl, rfl⟩ := h
      rw [usizeSub] at hcond
      refine ⟨le_rfl, by omega, [], by simp, by simp, by simp⟩
  | succ fuel ih =>
    intro i st out iF hfuel hi h
    unfold strideLoop at h
    split at h
    · rename_i hcond
      split at h
      · exact absurd h (by simp)
      · rename_i t hts
        have hlt : i < ts.length := by
          by_contra hge
          rw [List.getElem?_eq_none (by omega)] at hts
          exact absurd hts (by simp)
        split at h
        · split at h
          · exact absurd h (by simp)
          · rename_i v hv
            split at h
            · exact absurd h (by simp)
            · rename_i rest finalIdx hrec
              obtain ⟨hif1, hif2, js, hjs, hjb, hjm⟩ :=
                ih (i + 1) (wrap64 (st + delta)) rest finalIdx (by omega) (by omega) hrec
              split at h
              · simp only [Option.some.injEq, Prod.mk.injEq] at h
                obtain ⟨rfl, rfl⟩ := h
                exact ⟨by omega, hif2, js, hjs,
                  fun j hj => ⟨by have := (hjb j hj).1; omega, (hjb j hj).2⟩, hjm⟩
              · rename_i q
                simp only [Option.some.injEq, Prod.mk.injEq] at h
                obtain ⟨rfl, rfl⟩ := h
                refine ⟨by omega, hif2, i :: js, ?_, ?_, ?_⟩
                · exact List.pairwise_cons.mpr
                    ⟨fun j hj => by have := (hjb j hj).1; omega, hjs⟩
                · intro j hj
                  rcases List.mem_cons.mp hj with rfl | hj
                  · exact ⟨le_rfl, by omega⟩
                  · exact ⟨by have := (hjb j hj).1; omega, (hjb j hj).2⟩
                · simp only [List.map_cons, hjm, List.cons.injEq]
                  refine ⟨?_, trivial⟩
                  have hgd : ts.getD i 0 = t := by
                    rw [List.getD_eq_getElem ts 0 hlt]
                    have hg := List.getElem?_eq_getElem hlt
                    rw [hg] at hts
                    simpa using hts
                  rw [hgd]
        · obtain ⟨hif1, hif2, js, hjs, hjb, hjm⟩ :=
            ih (i + 1) st out iF (by omega) (by omega) h
          exact ⟨by omega, hif2, js, hjs,
            fun j hj => ⟨by have := (hjb j hj).1; omega, (hjb j hj).2⟩, hjm⟩
    · rename_i hcond
      simp only [Option.some.injEq, Prod.mk.injEq] at h
      obtain ⟨rfl, rfl⟩ := h
      rw [usizeSub] at hcond
      refine ⟨le_rfl, by omega, [], by simp, by simp, by simp⟩

/-- Successful tail emissions take timestamps at strictly increasing
indices within `[idx, endIdx]`, all in bounds. -/
theorem tailEmit_spec (ts : List Int) (vals : List (Option ℚ)) (scale : ℚ) :
    ∀ (fuel idx endIdx : Nat) (out : List (Int × ℚ)),
    endIdx + 1 - idx ≤ fuel →
    tailEmit ts vals scale idx endIdx = some out →
    ∃ js : List Nat, js.Pairwise (· < ·) ∧
      (∀ j ∈ js, idx ≤ j ∧ j ≤ endIdx ∧ j < ts.length) ∧
      out.map Prod.fst = js.map (fun j => ts.getD j 0) := by
  intro fuel
  induction fuel with
  | zero =>
    intro idx endIdx out hfuel h
    have hgt : ¬idx ≤ endIdx := by omega
    unfold tailEmit at h
    rw [if_neg hgt] at h
    simp only [Option.some.injEq] at h
    subst h
    exact ⟨[], by simp, by simp, by simp⟩
  | succ fuel ih =>
    intro idx endIdx out hfuel h
    unfold tailEmit at h
    split at h
    · rename_i hle
      split at h
      · exact absurd h (by simp)
      · rename_i hv
        obtain ⟨js, hjs, hjb, hjm⟩ := ih (idx + 1) endIdx out (by omega) h
        exact ⟨js, hjs, fun j hj => ⟨by have := (hjb j hj).1; omega, (hjb j hj).2.1,
          (hjb j hj).2.2⟩, hjm⟩
      · rename_i q hv
        split at h
        · exact absurd h (by simp)
        · rename_i t hts
          have hlt : idx < ts.length := by
            by_contra hge
            rw [List.getElem?_eq_none (by omega)] at hts
            exact absurd hts (by simp)
          split at h
          · exact absurd h (by simp)
          · rename_i rest hrec
            simp only [Option.some.injEq] at h
            subst h
            obtain ⟨js, hjs, hjb, hjm⟩ := ih (idx + 1) endIdx rest (by omega) hrec
            refine ⟨idx :: js, ?_, ?_, ?_⟩
            · exact List.pairwise_cons.mpr
                ⟨fun j hj => by have := (hjb j hj).1; omega, hjs⟩
            · intro j hj
              rcases List.mem_cons.mp hj with rfl | hj
              · exact ⟨le_rfl, hle, hlt⟩
              · exact ⟨by have := (hjb j hj).1; omega, (hjb j hj).2.1, (hjb j hj).2.2⟩
            · simp only [List.map_cons, hjm, List.cons.injEq]
              refine ⟨?_, trivial⟩
              have hgd : ts.getD idx 0 = t := by
                rw [List.getD_eq_getElem ts 0 hlt]
                have hg := List.getElem?_eq_getElem hlt
                rw [hg] at hts
                simpa using hts
              rw [hgd]
    · simp only [Option.some.injEq] at h
      subst h
      exact ⟨[], by simp, by simp, by simp⟩

/-- `end_idx` either lands strictly inside the vector with every index up
to it holding a timestamp at most `hi`, or wraps to `2^64 - 1`. -/
theorem sampleEndIdx_spec (ts : List Int) (hi : Int) (hs : List.Pairwise (· ≤ ·) ts)
    (hlen : ts.length < 2 ^ 64) :
    (sampleEndIdx ts hi < ts.length ∧
      ∀ j, j ≤ sampleEndIdx ts hi → j < ts.length → ts.getD j 0 ≤ hi) ∨
    sampleEndIdx ts hi = 2 ^ 64 - 1 := by
  rcases hbs : binarySearch ts hi with ⟨found, idx⟩
  cases found
  · obtain ⟨hle, hbelow, -⟩ := binarySearch_notFound hs hbs
    have hei : sampleEndIdx ts hi = usizeSub idx 1 := by
      unfold sampleEndIdx
      rw [hbs]
    by_cases hidx : idx = 0
    · subst hidx
      right
      rw [hei]
      norm_num [usizeSub]
    · left
      have husz : usizeSub idx 1 = idx - 1 := by
        unfold usizeSub
        omega
      rw [hei, husz]
      refine ⟨by omega, fun j hj hjl => le_of_lt (hbelow j (by omega))⟩
  · obtain ⟨hlt, hval⟩ := binarySearch_found hs hbs
    have hei : sampleEndIdx ts hi = idx := by
      unfold sampleEndIdx
      rw [hbs]
    left
    rw [hei]
    refine ⟨hlt, fun j hj hjl => ?_⟩
    calc ts.getD j 0 ≤ ts.getD idx 0 := sorted_getD_mono hs hj hlt
    _ = hi := hval

/-- Strictly increasing in-bounds indices map to non-decreasing values
in a sorted list. -/
theorem pairwise_le_map_getD {ts : List Int} (hs : List.Pairwise (· ≤ ·) ts)
    {js : List Nat} (hjs : js.Pairwise (· < ·)) (hb : ∀ j ∈ js, j < ts.length) :
    (js.map fun j => ts.getD j 0).Pairwise (· ≤ ·) := by
  rw [List.pairwise_map]
  refine hjs.imp_of_mem ?_
  intro a b ha hb' hab
  exact sorted_getD_mono hs (le_of_lt hab) (hb b hb')

/-- Bounds and monotonicity for one sampled series: with a sorted store
whose length plus the target count fits in a `usize`, every series that
`sample_metrics` actually returns stays inside the window and is
non-decreasing in time. -/
theorem sampleMetricsOne_bounds (ds : DataSetM) (id : Nat) (lo hi : Int) (n : Nat)
    (out : List (Int × ℚ))
    (hs : List.Pairwise (· ≤ ·) ds.timestamps)
    (hlen : ds.timestamps.length + n < 2 ^ 64)
    (h : sampleMetricsOne ds id lo hi n = some out) :
    (∀ p ∈ out, lo ≤ p.1 ∧ p.1 ≤ hi) ∧ (out.map Prod.fst).Pairwise (· ≤ ·) := by
  unfold sampleMetricsOne at h
  split at h
  · exact absurd h (by simp)
  · rename_i desc hdesc
    split at h
    · simp only [Option.some.injEq] at h
      subst h
      exact ⟨by simp, by simp⟩
    · rename_i values hvals
      split at h
      · exact absurd h (by simp)
      · rename_i hn0
        split at h
        · exact absurd h (by simp)
        · rename_i samples finalIdx hstride
          split at h
          · exact absurd h (by simp)
          · rename_i rest htail
            simp only [Option.some.injEq] at h
            subst h
            rcases sampleEndIdx_spec ds.timestamps hi hs (by omega) with
              ⟨hend, hupper⟩ | hwrap
            · have hstart_le : (binarySearch ds.timestamps lo).2 ≤ ds.timestamps.length :=
                binarySearch_le_length hs
              obtain ⟨hif1, hif2, js1, hjs1, hjb1, hjm1⟩ :=
                strideLoop_spec ds.timestamps values desc.scale
                  (sampleEndIdx ds.timestamps hi) n ((hi - lo).tdiv (toSigned64 n))
                  hend (by omega)
                  (ds.timestamps.length - (binarySearch ds.timestamps lo).2)
                  (binarySearch ds.timestamps lo).2 lo samples finalIdx
                  le_rfl hstart_le hstride
              obtain ⟨js2, hjs2, hjb2, hjm2⟩ :=
                tailEmit_spec ds.timestamps values desc.scale
                  (sampleEndIdx ds.timestamps hi + 1 - finalIdx) finalIdx
                  (sampleEndIdx ds.timestamps hi) rest le_rfl htail
              have hjlt1 : ∀ j ∈ js1, j < ds.timestamps.length := by
                intro j hj
                have hb := (hjb1 j hj).2
                omega
              have hjlt2 : ∀ j ∈ js2, j < ds.timestamps.length :=
                fun j hj => (hjb2 j hj).2.2
              constructor
              · intro p hp
                rcases List.mem_append.mp hp with hp1 | hp2
                · have hfst : p.1 ∈ samples.map Prod.fst := List.mem_map_of_mem _ hp1
                  rw [hjm1] at hfst
                  obtain ⟨j, hj, hjeq⟩ := List.mem_map.mp hfst
                  constructor
                  · rw [← hjeq]
                    exact startIdx_lower hs j (hjb1 j hj).1 (hjlt1 j hj)
                  · rw [← hjeq]
                    refine hupper j ?_ (hjlt1 j hj)
                    have hb := (hjb1 j hj).2
                    omega
                · have hfst : p.1 ∈ rest.map Prod.fst := List.mem_map_of_mem _ hp2
                  rw [hjm2] at hfst
                  obtain ⟨j, hj, hjeq⟩ := List.mem_map.mp hfst
                  constructor
                  · rw [← hjeq]
                    refine startIdx_lower hs j ?_ (hjlt2 j hj)
                    have hb := (hjb2 j hj).1
                    omega
                  · rw [← hjeq]
                    exact hupper j (hjb2 j hj).2.1 (hjlt2 j hj)
              · have hmap : (samples ++ rest).map Prod.fst
                    = (js1 ++ js2).map (fun j => ds.timestamps.getD j 0) := by
                  rw [List.map_append, List.map_append, hjm1, hjm2]
                rw [hmap]
                apply pairwise_le_map_getD hs
                · rw [List.pairwise_append]
                  refine ⟨hjs1, hjs2, ?_⟩
                  intro a ha b hb
                  have h1 := (hjb1 a ha).2
                  have h2 := (hjb2 b hb).1
                  omega
                · intro j hj
                  rcases List.mem_append.mp hj with hj | hj
                  · exact hjlt1 j hj
                  · exact hjlt2 j hj
            · exfalso
              have hnone := strideLoop_none ds.timestamps values desc.scale
                (sampleEndIdx ds.timestamps hi) n ((hi - lo).tdiv (toSigned64 n))
                (fun i hi' => by rw [hwrap]; unfold usizeSub; omega)
                (ds.timestamps.length - (binarySearch ds.timestamps lo).2)
                (binarySearch ds.timestamps lo).2 lo le_rfl (binarySearch_le_length hs)
              rw [hnone] at hstride
              exact absurd hstride (by simp)

/-- `HashMap` insertion preserves a property of all stored series. -/
theorem mapInsertNat_forall {α : Type} (P : α → Prop) :
    ∀ (acc : List (Nat × α)) (k : Nat) (v : α),
    (∀ e ∈ acc, P e.2) → P v → ∀ e ∈ mapInsertNat acc k v, P e.2 := by
  intro acc
  induction acc with
  | nil =>
    intro k v hacc hv e he
    simp only [mapInsertNat, List.mem_singleton] at he
    subst he
    exact hv
  | cons kv rest ih =>
    intro k v hacc hv e he
    simp only [mapInsertNat] at he
    split at he
    · rcases List.mem_cons.mp he with rfl | he
      · exact hv
      · exact hacc e (by simp [he])
    · rcases List.mem_cons.mp he with rfl | he
      · exact hacc e (by simp)
      · exact ih k v (fun e' he' => hacc e' (by simp [he'])) hv e he

/-- Every series in the result of the id loop satisfies the per-series
property, provided the accumulator already does. -/
theorem sampleMetricsGo_bounds (ds : DataSetM) (lo hi : Int) (n : Nat)
    (hs : List.Pairwise (· ≤ ·) ds.timestamps)
    (hlen : ds.timestamps.length + n < 2 ^ 64) :
    ∀ (ids : List Nat) (acc out : List (Nat × List (Int × ℚ))),
    (∀ e ∈ acc, (∀ p ∈ e.2, lo ≤ p.1 ∧ p.1 ≤ hi) ∧ (e.2.map Prod.fst).Pairwise (· ≤ ·)) →
    sampleMetricsGo ds lo hi n ids acc = some out →
    ∀ e ∈ out, (∀ p ∈ e.2, lo ≤ p.1 ∧ p.1 ≤ hi) ∧ (e.2.map Prod.fst).Pairwise (· ≤ ·) := by
  intro ids
  induction ids with
  | nil =>
    intro acc out hacc h
    simp only [sampleMetricsGo, Option.some.injEq] at h
    subst h
    exact hacc
  | cons id rest ih =>
    intro acc out hacc h
    simp only [sampleMetricsGo] at h
    split at h
    · exact absurd h (by simp)
    · rename_i s hone
      exact ih _ out
        (mapInsertNat_forall
          (fun series => (∀ p ∈ series, lo ≤ p.1 ∧ p.1 ≤ hi) ∧
            (series.map Prod.fst).Pairwise (· ≤ ·))
          acc id s hacc
          (sampleMetricsOne_bounds ds id lo hi n s hs hlen hone))
        h

/-- **C8 amended.** Provided the store's timestamp vector is sorted
(non-strictly, as produced by an archive whose timestamps never
decrease) and its length plus the target point count fits in a `usize`,
every series returned by `sample_metrics` stays inside the requested
window `[t_lo, t_hi]` and its timestamps are non-decreasing.  (Strict
increase fails when the store holds equal adjacent timestamps, which
all-zero delta blocks produce; without the size bound a huge
`target_points` can leak one out-of-window sample — see the
counterexample.) -/
theorem sampler_bounds (ds : DataSetM) (ids : List Nat) (lo hi : Int) (n : Nat)
    (out : List (Nat × List (Int × ℚ)))
    (hs : List.Pairwise (· ≤ ·) ds.timestamps)
    (hlen : ds.timestamps.length + n < 2 ^ 64)
    (h : sample_metrics ds ids lo hi n = some out) :
    ∀ e ∈ out, (∀ p ∈ e.2, lo ≤ p.1 ∧ p.1 ≤ hi) ∧ (e.2.map Prod.fst).Pairwise (· ≤ ·) :=
  sampleMetricsGo_bounds ds lo hi n hs hlen ids [] out (by simp) h

/-- **C8 counterexample.** Two violations of the claim as stated: a
store with two equal timestamps (as an all-zero-delta block produces)
returns a series whose timestamps repeat — inside the window but not
strictly increasing — and a huge `target_points` (`usize::MAX`) makes
the wrapped loop condition fail after one emission, returning a sample
whose timestamp lies outside the requested window. -/
theorem sampler_bounds_cx :
    sample_metrics ⟨⟨[⟨["a"], "a", 1⟩], []⟩, [], [5, 5], [(["a"], [some 1, some 2])]⟩
        [0] 4 5 3 = some [(0, [(5, 1), (5, 2)])] ∧
    ¬((5 : Int) < 5) ∧
    sample_metrics ⟨⟨[⟨["a"], "a", 1⟩], []⟩, [], [10, 20], [(["a"], [some 1, some 1])]⟩
        [0] 12 15 18446744073709551615 = some [(0, [(20, 1)])] ∧
    ¬((20 : Int) ≤ 15) := by
  refine ⟨?_, by norm_num, ?_, by norm_num⟩
  · simp +decide [sample_metrics, sampleMetricsGo, sampleMetricsOne, sampleEndIdx,
      binarySearch, binarySearchLoop, lookupCanon, canon, usizeSub, strideLoop, tailEmit,
      mapInsertNat, toSigned64, wrap64, List.getD]
  · simp +decide [sample_metrics, sampleMetricsGo, sampleMetricsOne, sampleEndIdx,
      binarySearch, binarySearchLoop, lookupCanon, canon, usizeSub, strideLoop, tailEmit,
      mapInsertNat, toSigned64, wrap64, List.getD]

/-- Witness for C8 (amended): a sorted two-point store sampled over its
own span returns both points, in-window and non-decreasing. -/
theorem sampler_bounds_witness :
    List.Pairwise (· ≤ ·)
      ((⟨⟨[⟨["a"], "a", 1⟩], []⟩, [], [1, 2], [(["a"], [some 1, some 2])]⟩ :
        DataSetM)).timestamps ∧
    ((⟨⟨[⟨["a"], "a", 1⟩], []⟩, [], [1, 2], [(["a"], [some 1, some 2])]⟩ :
        DataSetM)).timestamps.length + 5 < 2 ^ 64 ∧
    ∀ e ∈ [((0 : Nat), [((1 : Int), (1 : ℚ)), (2, 2)])],
      (∀ p ∈ e.2, 1 ≤ p.1 ∧ p.1 ≤ 2) ∧ (e.2.map Prod.fst).Pairwise (· ≤ ·) := by
  have hsm : sample_metrics
      ⟨⟨[⟨["a"], "a", 1⟩], []⟩, [], [1, 2], [(["a"], [some 1, some 2])]⟩ [0] 1 2 5
      = some [(0, [(1, 1), (2, 2)])] := by
    simp +decide [sample_metrics, sampleMetricsGo, sampleMetricsOne, sampleEndIdx,
      binarySearch, binarySearchLoop, lookupCanon, canon, usizeSub, strideLoop, tailEmit,
      mapInsertNat, toSigned64, wrap64, List.getD]
  exact ⟨by decide, by norm_num,
    sampler_bounds _ [0] 1 2 5 _ (by decide) (by norm_num) hsm⟩
